import Mathlib

/-!
Verification of the ViPR-SRM alerting configuration-graph engine
(`AlertingConfig.py` and the reachability pruner of
`alerting-add-grouplist.py`) against its specification.

The document model is a shallow embedding of the `xml.dom.minidom`
trees the scripts operate on: an element node carries a tag name, an
attribute list and an ordered list of children; a text node carries its
character data.  Node identity in Python (object identity, used by the
traversal's `seen` set and by `getElementById`) is modelled by
structural equality; this is faithful for the nodes those features
touch, because they are always top-level children whose `id` attributes
differ.
-/

inductive XNode where
  | elem (tag : String) (attrs : List (String × String)) (children : List XNode)
  | text (data : String)

mutual
/-- Structural equality on nodes is decidable. -/
def decEqX : (a b : XNode) → Decidable (a = b)
  | .elem t1 a1 c1, .elem t2 a2 c2 =>
      if ht : t1 = t2 then
        if ha : a1 = a2 then
          match decEqXL c1 c2 with
          | isTrue hc => isTrue (by rw [ht, ha, hc])
          | isFalse hc => isFalse fun h => hc (by injection h)
        else isFalse fun h => ha (by injection h)
      else isFalse fun h => ht (by injection h)
  | .elem _ _ _, .text _ => isFalse fun h => XNode.noConfusion h
  | .text _, .elem _ _ _ => isFalse fun h => XNode.noConfusion h
  | .text d1, .text d2 =>
      if hd : d1 = d2 then isTrue (by rw [hd])
      else isFalse fun h => hd (by injection h)

/-- Structural equality on node lists is decidable. -/
def decEqXL : (a b : List XNode) → Decidable (a = b)
  | [], [] => isTrue rfl
  | [], _ :: _ => isFalse fun h => List.noConfusion h
  | _ :: _, [] => isFalse fun h => List.noConfusion h
  | x :: xs, y :: ys =>
      match decEqX x y, decEqXL xs ys with
      | isTrue h1, isTrue h2 => isTrue (by rw [h1, h2])
      | isFalse h1, _ => isFalse fun h => h1 (by injection h)
      | _, isFalse h2 => isFalse fun h => h2 (by injection h)
end

instance : DecidableEq XNode := decEqX

/-- The tag name of an element; text nodes have no tag and yield `""`. -/
def tagName : XNode → String
  | .elem t _ _ => t
  | .text _ => ""

/-- Is this node an element node (as opposed to a text node)? -/
def isElem : XNode → Bool
  | .elem _ _ _ => true
  | .text _ => false

/-- The ordered child list of a node (empty for text nodes). -/
def childrenOf : XNode → List XNode
  | .elem _ _ cs => cs
  | .text _ => []

/-- minidom `getAttribute`: the attribute's value, or `""` when absent. -/
def getAttribute (n : XNode) (name : String) : String :=
  match n with
  | .elem _ attrs _ => ((attrs.lookup name).getD "")
  | .text _ => ""

/-- `getText` from the source: the concatenation of the data of the
node's direct text children. -/
def getText (n : XNode) : String :=
  (childrenOf n).foldl
    (fun acc c => match c with | .text d => acc ++ d | .elem _ _ _ => acc) ""

mutual
/-- minidom `getElementsByTagName`: every descendant element (the node
itself excluded) whose tag equals `tag`, in document (preorder) order. -/
def elemsByTag (tag : String) : XNode → List XNode
  | .text _ => []
  | .elem _ _ cs => elemsByTagL tag cs

/-- Helper for `elemsByTag`: collects matches from a child list; each
child is listed (when it matches) before its own descendants. -/
def elemsByTagL (tag : String) : List XNode → List XNode
  | [] => []
  | c :: rest =>
      (if tagName c = tag ∧ isElem c then [c] else []) ++
        elemsByTag tag c ++ elemsByTagL tag rest
end

/-- The element nodes among the direct children of the document root
(the only nodes the scripts index). -/
def topElems (root : XNode) : List XNode :=
  (childrenOf root).filter (fun c => isElem c)

example : getText (.elem "a" [] [.text "x", .elem "b" [] [.text "q"], .text "y"]) = "xy" := by
  decide

example :
    elemsByTag "b" (.elem "a" [] [.elem "b" [] [.elem "b" [] []], .text "t", .elem "c" [] []])
      = [.elem "b" [] [.elem "b" [] []], .elem "b" [] []] := by
  decide

/-!
The `AlertingConfig` wrapper.  `regIds` records which identifiers were
declared as DTD-style ids via `setIdAttribute` in `__init__` — only the
top-level element children carrying a non-empty `id` attribute at
construction time.  minidom's `getElementById` resolves an identifier
only when some element's `id` attribute was declared in this way, so a
node added later by `create_node` (which calls `setAttribute` but never
`setIdAttribute`) is invisible to it.  `refChild` is `none` until
`mk_toc` runs (the Python attribute is initialised to `None`).
-/

structure AlertingConfig where
  root : XNode
  regIds : List String
  refChild : Option (List (String × Option XNode))

/-- `AlertingConfig.__init__`: record the document root and declare the
`id` attribute of every top-level element child that has a non-empty
one; the reference-point table starts out absent. -/
def mkConfig (root : XNode) : AlertingConfig :=
  { root := root
    regIds := (topElems root).filterMap
      (fun n => if getAttribute n "id" = "" then none else some (getAttribute n "id"))
    refChild := none }

/-- minidom `getElementById` as the scripts use it: an identifier
resolves only if it was declared at construction time, in which case the
(unique) top-level element child currently carrying it is returned;
anything else — including ids of nodes created later — yields `none`. -/
def getById (cfg : AlertingConfig) (q : String) : Option XNode :=
  if q ∈ cfg.regIds then
    (topElems cfg.root).find? (fun n => getAttribute n "id" = q)
  else none

/-- The fixed category order of top-level nodes
(`AlertingConfig.allowed_subelements`). -/
def allowedSubelements : List String :=
  ["adapter-list", "definition-list", "entry-point-list", "operation-list",
   "action-list", "grouped-box-list", "component-template-list"]

/-- The `itertools.groupby` pass of `mk_toc`: one pair per maximal run of
consecutive equal tags, holding the first node of that run, in document
order.  The second argument is the tag of the run in progress. -/
def runsFirst : List XNode → Option String → List (String × XNode)
  | [], _ => []
  | c :: rest, prev =>
      if prev = some (tagName c) then runsFirst rest prev
      else (tagName c, c) :: runsFirst rest (some (tagName c))

/-- Lookup in the dict built from `runsFirst` pairs: as in Python's
`dict(...)` over repeated keys, a later pair overwrites an earlier one,
so the lookup scans the reversed pair list. -/
def tocGet (pairs : List (String × XNode)) (tag : String) : Option XNode :=
  pairs.reverse.lookup tag

/-- The reverse scan of `mk_toc` building `self.refChild`: walking the
allowed categories from last to first, each category's reference point
is the value carried in from the later categories, and the carried value
is replaced by this category's own toc entry when it has one. -/
def refScan (pairs : List (String × XNode)) : List String → Option XNode →
    List (String × Option XNode)
  | [], _ => []
  | tag :: rest, child =>
      (tag, child) :: refScan pairs rest
        (match tocGet pairs tag with
          | some n => some n
          | none => child)

/-- `mk_toc`'s reference-point table, as an association list over the
allowed categories. -/
def mkRefChild (elems : List XNode) : List (String × Option XNode) :=
  refScan (runsFirst elems none) allowedSubelements.reverse none

/-- `mk_toc` on a configuration: rebuild the reference-point table from
the current top-level element children. -/
def mkToc (cfg : AlertingConfig) : AlertingConfig :=
  { cfg with refChild := some (mkRefChild (topElems cfg.root)) }

/-!
`create_node` and `add_link`.  The Python method builds a fresh element
with its `id` attribute set, a leading text child, and per component
`(key, name, value)` an indented sub-element (whose `name` attribute is
set only when the label is truthy, i.e. neither `None` nor the empty
string) with the value as text content; it then splices the node into
the document's child list immediately before the category's reference
point, or appends it when that reference point is `None`.  It performs
no duplicate-identifier check, does not register the new id with the
document's id index, and does not refresh `refChild`.
-/

/-- One component sub-element of `create_node`. -/
def mkComponentElem (comp : String × Option String × String) : XNode :=
  .elem comp.1
    (match comp.2.1 with
      | some s => if s = "" then [] else [("name", s)]
      | none => [])
    [.text comp.2.2]

/-- The fresh node built by `create_node` before insertion. -/
def mkNewNode (tag id : String) (comps : List (String × Option String × String)) : XNode :=
  .elem tag [("id", id)]
    (.text "\n    " ::
      comps.flatMap (fun c => [.text "    ", mkComponentElem c, .text "\n    "]))

/-- minidom `insertBefore`, twice in a row with the same reference node:
splice `n1` then `n2` immediately before the first occurrence of `rc`.
When `rc` is not among the children the first `insertBefore` raises
`NotFoundErr` and nothing is spliced. -/
def insertTwoBefore (n1 n2 rc : XNode) : List XNode → Except String (List XNode)
  | [] => .error "NotFoundErr"
  | c :: rest =>
      if c = rc then .ok (n1 :: n2 :: c :: rest)
      else (insertTwoBefore n1 n2 rc rest).map (c :: ·)

/-- Replace an element node's child list. -/
def setChildren : XNode → List XNode → XNode
  | .elem t a _, cs => .elem t a cs
  | .text d, _ => .text d

/-- `AlertingConfig.create_node`.  Reading `self.refChild[tag]` raises
`TypeError` when `mk_toc` has never run (the table is still `None`) and
`KeyError` when `tag` is not an allowed category; in either case the
document is untouched.  Otherwise the new node (and its surrounding
whitespace text nodes) is spliced in before the reference point, or
appended when the reference point is `None`.  No duplicate-identifier
check of any kind is made. -/
def createNode (cfg : AlertingConfig) (tag id : String)
    (comps : List (String × Option String × String)) :
    Except String (AlertingConfig × XNode) :=
  match cfg.refChild with
  | none => .error "TypeError"
  | some table =>
      match table.lookup tag with
      | none => .error "KeyError"
      | some rcOpt =>
          let newNode := mkNewNode tag id comps
          match rcOpt with
          | none =>
              let cs := (childrenOf cfg.root) ++ [.text "    ", newNode, .text "\n"]
              .ok ({ cfg with root := setChildren cfg.root cs }, newNode)
          | some rc => do
              let cs ← insertTwoBefore newNode (.text "\n    ") rc (childrenOf cfg.root)
              .ok ({ cfg with root := setChildren cfg.root cs }, newNode)

/-- `AlertingConfig.add_link`: append to `source` a reference element
whose tag is `dest`'s tag, whose `from`/`to` attributes are the two
ports, and whose text content is `dest`'s identifier (with the
surrounding whitespace text nodes the Python appends). -/
def addLink (source dest : XNode) (fromAttr toAttr : String) : XNode :=
  match source with
  | .elem t a cs =>
      .elem t a (cs ++
        [.text "    ",
         .elem (tagName dest) [("from", fromAttr), ("to", toAttr)]
           [.text (getAttribute dest "id")],
         .text "\n    "])
  | .text d => .text d

/-!
`walkDefinition`.  The traversal keeps a `seen` set of the values
returned by `getElementById` — including `None` when a reference's text
does not resolve.  Every insertion into `seen` is immediately paired
with exactly one visitor call, so the final `seen` list (newest first)
records the visitor's call arguments.  A resolved entry-point or
operation node is descended into when its visit returns `None`; if the
reference did NOT resolve, that descent is `helper(None)`, which in
Python dies with `AttributeError` (`None` has no
`getElementsByTagName`).  The action-reference loop never descends.

The Python recursion terminates because `seen` only grows inside the
finite set of resolvable nodes; the embedding makes the same recursion
structurally total with a fuel parameter, `none` meaning the fuel ran
out, and `walkFuel` below is proved sufficient.  The visitor is the
two-argument `predicate(element, parent)` form of the source (the
one-argument introspective adaption is an inessential wrapper).
-/

/-- The action-reference loop of `walkDefinition.helper`: resolve each
`action-list` reference of `node`; an unseen result is marked seen and
visited (even when it is `None`), and a non-`None` visit short-circuits.
No descent happens here. -/
def actionScan {α : Type} (cfg : AlertingConfig)
    (visitor : Option XNode → XNode → Option α) :
    List (Option XNode) → XNode → List XNode → Option α × List (Option XNode)
  | seen, _, [] => (none, seen)
  | seen, node, ref :: rest =>
      let el := getById cfg (getText ref)
      if el ∈ seen then actionScan cfg visitor seen node rest
      else
        match visitor el node with
        | some r => (some r, el :: seen)
        | none => actionScan cfg visitor (el :: seen) node rest

/-- The operation-reference loop (also the shape of the entry-point loop
of `walkDefinition` itself): resolve, mark seen, visit, and when the
visit yields `None`, descend via `descend` (the recursive helper at the
remaining fuel) — a descent into an unresolved reference raises
`AttributeError`. -/
def opScanGo {α : Type} (cfg : AlertingConfig)
    (visitor : Option XNode → XNode → Option α)
    (descend : List (Option XNode) → XNode →
      Option (Except String (Option α) × List (Option XNode))) :
    List (Option XNode) → XNode → List XNode →
    Option (Except String (Option α) × List (Option XNode))
  | seen, _, [] => some (.ok none, seen)
  | seen, node, ref :: rest =>
      let el := getById cfg (getText ref)
      if el ∈ seen then opScanGo cfg visitor descend seen node rest
      else
        match visitor el node with
        | some r => some (.ok (some r), el :: seen)
        | none =>
            match el with
            | none => some (.error "AttributeError", el :: seen)
            | some elN =>
                match descend (el :: seen) elN with
                | none => none
                | some (.error e, seen2) => some (.error e, seen2)
                | some (.ok (some r), seen2) => some (.ok (some r), seen2)
                | some (.ok none, seen2) => opScanGo cfg visitor descend seen2 node rest

/-- `walkDefinition.helper`, fueled: scan the node's action references,
then its operation references, descending through the latter with one
unit of fuel less. -/
def helperF {α : Type} (cfg : AlertingConfig)
    (visitor : Option XNode → XNode → Option α) (fuel : Nat) :
    List (Option XNode) → XNode →
    Option (Except String (Option α) × List (Option XNode)) :=
  Nat.rec (fun _ _ => none)
    (fun _ ih seen node =>
      match actionScan cfg visitor seen node (elemsByTag "action-list" node) with
      | (some r, seen1) => some (.ok (some r), seen1)
      | (none, seen1) =>
          opScanGo cfg visitor ih seen1 node (elemsByTag "operation-list" node))
    fuel

/-- `walkDefinition` itself: assert the root is a `definition-list`
(a text node would instead die on the missing `tagName` attribute), then
run the entry-point loop — which has exactly the shape of the operation
loop, with the definition as the visit parent. -/
def walkDefF {α : Type} (fuel : Nat) (cfg : AlertingConfig) (definition : XNode)
    (visitor : Option XNode → XNode → Option α) :
    Option (Except String (Option α) × List (Option XNode)) :=
  match definition with
  | .text _ => some (.error "AttributeError", [])
  | .elem t _ _ =>
      if t = "definition-list" then
        opScanGo cfg visitor (helperF cfg visitor fuel) [] definition
          (elemsByTag "entry-point-list" definition)
      else some (.error "AssertionError", [])

/-- A fuel bound sufficient for any walk over `cfg` (proved below): one
more than the number of top-level element children. -/
def walkFuel (cfg : AlertingConfig) : Nat :=
  (topElems cfg.root).length + 1

/-!
The reachability pruner (`check_for_orphan_nodes` in
`alerting-add-grouplist.py`).  The caller builds `top_nodes` (top-level
element children grouped by tag) and `index` (identifier to node, later
assignments overwriting earlier ones) once from the document; the pruner
computes its live sets against that fixed snapshot while removing
unused nodes from the document's child list.  The recursive helper that
computes `liveOperations` carries NO visited set: it recurses on the
resolved targets of every non-empty reference set, so mutually
referencing operations recurse forever (the fuel parameter of the
embedding exposes exactly that: on such documents no amount of fuel
produces a result).  Python sets are modelled as deduplicated lists in
document order; set iteration order only affects which of several
failures is raised first and the internal accumulation order, neither of
which is observable in the final result.
-/

/-- Python set union of two deduplicated lists. -/
def setU (a b : List String) : List String :=
  (a ++ b).dedup

/-- The per-node reference texts `getText(element)` collected by the
orphan-checker's helper: every descendant element of tag `tag`. -/
def refTexts (tag : String) (node : XNode) : List String :=
  (elemsByTag tag node).map getText

/-- The `index` dict built in `process`: identifier to top-level node,
for nodes with a non-empty `id`; a later node overwrites an earlier one
with the same id, so lookups go through `tocGet` (python dict
semantics). -/
def idxPairs (tops : List XNode) : List (String × XNode) :=
  tops.filterMap (fun n =>
    if getAttribute n "id" = "" then none else some (getAttribute n "id", n))

/-- The non-recursive orphan-checker helper (`recursive=False`): for
each node, the set of its reference texts, all unioned. -/
def marksList (tag : String) : List XNode → List String
  | [] => []
  | n :: rest => setU (refTexts tag n).dedup (marksList tag rest)

/-- Resolve every identifier through the index, as the generator
`(index[id] for id in marked2)` does when the helper consumes it; a
missing identifier raises `KeyError`. -/
def resolveAll (idx : List (String × XNode)) : List String → Except String (List XNode)
  | [] => .ok []
  | q :: rest =>
      match tocGet idx q with
      | none => .error "KeyError"
      | some n => (resolveAll idx rest).map (n :: ·)

/-- The body of the recursive orphan-checker helper
(`recursive=True`), abstracted over what a recursion step on a node's
direct reference texts produces: for each node, collect its direct
reference texts; when they are non-empty, run the recursion step; union
everything.  `none` means the fuel ran out inside some step. -/
def helperOrphGo (tag : String)
    (sub : List String → Option (Except String (List String))) :
    List XNode → Option (Except String (List String))
  | [] => some (.ok [])
  | node :: rest =>
      let marked2 := (refTexts tag node).dedup
      let s := if marked2.isEmpty then some (.ok []) else sub marked2
      match s with
      | none => none
      | some (.error e) => some (.error e)
      | some (.ok subMarks) =>
          match helperOrphGo tag sub rest with
          | none => none
          | some (.error e) => some (.error e)
          | some (.ok restMarks) => some (.ok (setU (setU marked2 subMarks) restMarks))

/-- The recursive orphan-checker helper, fueled: a recursion step
resolves the reference texts through the index (a missing identifier
raises `KeyError`) and recurses on the resolved nodes with one unit of
fuel less.  The Python recursion carries no visited set and no other
bound, so the fuel is the only thing cutting a reference cycle. -/
def helperOrphF (idx : List (String × XNode)) (tag : String) (fuel : Nat) :
    List XNode → Option (Except String (List String)) :=
  Nat.rec (helperOrphGo tag (fun _ => none))
    (fun _ ih => helperOrphGo tag (fun marked2 =>
      match resolveAll idx marked2 with
      | .error e => some (.error e)
      | .ok resolved => ih resolved))
    fuel

/-- The identifiers of the snapshot's top-level nodes of one category
(`set(node.getAttribute('id') for node in top_nodes[tag_name])`; a node
without an `id` contributes the empty string). -/
def catIds (tops : List XNode) (tag : String) : List String :=
  ((tops.filter (fun n => tagName n = tag)).map (fun n => getAttribute n "id")).dedup

/-- minidom `removeChild`: drop the first occurrence of the node from
the child list, or raise `NotFoundErr` when it is not there. -/
def removeChildX (node : XNode) : List XNode → Except String (List XNode)
  | [] => .error "NotFoundErr"
  | c :: rest =>
      if c = node then .ok rest else (removeChildX node rest).map (c :: ·)

/-- The removal loop of the orphan-checker's `lint`: for each unused
identifier, remove `index[id]` from the root's children (a missing index
entry raises `KeyError`), counting the removals. -/
def removeIds (idx : List (String × XNode)) (root : XNode) :
    List String → Except String (XNode × Nat)
  | [] => .ok (root, 0)
  | q :: rest =>
      match tocGet idx q with
      | none => .error "KeyError"
      | some n =>
          match removeChildX n (childrenOf root) with
          | .error e => .error e
          | .ok cs =>
              (removeIds idx (setChildren root cs) rest).map (fun p => (p.1, p.2 + 1))

/-- One full `check_for_orphan_nodes` pass over a document, fueled by
the recursive helper's fuel: build the snapshot, compute and prune live
entry points, operations (recursively), and actions, in the source's
order, against the fixed snapshot.  The returned number counts the
`removeChild` calls executed. -/
def pruneRunF (fuel : Nat) (root : XNode) : Option (Except String (XNode × Nat)) :=
  let tops := topElems root
  let idx := idxPairs tops
  let liveEntry := marksList "entry-point-list"
    (tops.filter (fun n => tagName n = "definition-list"))
  match removeIds idx root ((catIds tops "entry-point-list").filter (fun q => ¬ q ∈ liveEntry)) with
  | .error e => some (.error e)
  | .ok (root1, k1) =>
      match resolveAll idx liveEntry with
      | .error e => some (.error e)
      | .ok entryNodes =>
          match helperOrphF idx "operation-list" fuel entryNodes with
          | none => none
          | some (.error e) => some (.error e)
          | some (.ok liveOps) =>
              match removeIds idx root1 ((catIds tops "operation-list").filter (fun q => ¬ q ∈ liveOps)) with
              | .error e => some (.error e)
              | .ok (root2, k2) =>
                  match resolveAll idx liveOps with
                  | .error e => some (.error e)
                  | .ok opNodes =>
                      let liveActs := setU (marksList "action-list" entryNodes)
                        (marksList "action-list" opNodes)
                      match removeIds idx root2 ((catIds tops "action-list").filter (fun q => ¬ q ∈ liveActs)) with
                      | .error e => some (.error e)
                      | .ok (root3, k3) => some (.ok (root3, k1 + k2 + k3))

/-!
Concrete documents.  `scenRoot` is the concrete scenario of the
specification's testable-properties section: definition `D` referencing
entry point `E1`; `E1` referencing operation `O1` (ports
`output`/`entry`); `O1` referencing actions `Ac1` (`true`/`entry`) and
`Ac2` (`false`/`entry`).
-/

/-- A reference element: ports `from`/`to` and the target identifier as
text content. -/
def refEl (tag fromA toA target : String) : XNode :=
  .elem tag [("from", fromA), ("to", toA)] [.text target]

def defD : XNode :=
  .elem "definition-list" [("name", "D"), ("enabled", "true")]
    [.elem "entry-point-list" [] [.text "E1"]]

def nodeE1 : XNode :=
  .elem "entry-point-list" [("id", "E1")]
    [refEl "operation-list" "output" "entry" "O1"]

def nodeO1 : XNode :=
  .elem "operation-list" [("id", "O1")]
    [refEl "action-list" "true" "entry" "Ac1",
     refEl "action-list" "false" "entry" "Ac2"]

def nodeAc1 : XNode :=
  .elem "action-list" [("id", "Ac1")] [.elem "name" [] [.text "a1"]]

def nodeAc2 : XNode :=
  .elem "action-list" [("id", "Ac2")] [.elem "name" [] [.text "a2"]]

def scenRoot : XNode :=
  .elem "AlertingConfig" [] [defD, nodeE1, nodeO1, nodeAc1, nodeAc2]

def scenCfg : AlertingConfig := mkConfig scenRoot

/-- The node `createNode('action-list','Ac3',[('name',None,'x')])`
builds. -/
def ac3Node : XNode := mkNewNode "action-list" "Ac3" [("name", none, "x")]

/-- In-place mutation of a top-level child (Python mutates the node
object; the tree model replaces the child value). -/
def replaceChild (old new root : XNode) : XNode :=
  setChildren root ((childrenOf root).map (fun c => if c = old then new else c))

/-- The scenario document after `createNode` appended `Ac3` (the
`action-list` reference point is `None`: no later category exists). -/
def scenRoot2 : XNode :=
  .elem "AlertingConfig" []
    [defD, nodeE1, nodeO1, nodeAc1, nodeAc2, .text "    ", ac3Node, .text "\n"]

def scenCfg2 : AlertingConfig :=
  { root := scenRoot2, regIds := scenCfg.regIds, refChild := (mkToc scenCfg).refChild }

/-- `O1` after `addLink(O1, Ac3node, 'true', 'entry')`. -/
def nodeO1Linked : XNode := addLink nodeO1 ac3Node "true" "entry"

/-- The scenario document after the link was added. -/
def scenCfg3 : AlertingConfig :=
  { scenCfg2 with root := replaceChild nodeO1 nodeO1Linked scenRoot2 }

/-- A collecting visitor: records everything (via the seen list) and
never short-circuits. -/
def collectVis : Option XNode → XNode → Option Unit := fun _ _ => none

deriving instance DecidableEq for AlertingConfig

instance {ε α : Type} [DecidableEq ε] [DecidableEq α] : DecidableEq (Except ε α) :=
  fun a b =>
    match a, b with
    | .ok x, .ok y =>
        if h : x = y then isTrue (by rw [h]) else isFalse fun he => h (by injection he)
    | .error x, .error y =>
        if h : x = y then isTrue (by rw [h]) else isFalse fun he => h (by injection he)
    | .ok _, .error _ => isFalse fun he => Except.noConfusion he
    | .error _, .ok _ => isFalse fun he => Except.noConfusion he

example : createNode (mkToc scenCfg) "action-list" "Ac3" [("name", none, "x")]
    = .ok (scenCfg2, ac3Node) := by decide

example : walkDefF (walkFuel scenCfg3) scenCfg3 defD collectVis
    = some (.ok none, [none, some nodeAc2, some nodeAc1, some nodeO1Linked, some nodeE1]) := by
  decide

/-- C3: the section-8 scenario fails on the code.  After
`createNode('action-list','Ac3',[('name',None,'x')])` and
`addLink(O1, Ac3node, 'true', 'entry')`, the collecting walk over `D`
visits only `{E1, O1, Ac1, Ac2}` — `Ac3` is NOT resolvable through the
identifier index used by `walk`, because `create_node` sets the new
node's `id` attribute without ever declaring it via `setIdAttribute`,
so `getElementById('Ac3')` returns `None`; the visitor is instead
called once with that `None`.  (`seen`, newest first, records the
visitor's call arguments.) -/
theorem walkAfterCreateMissesNewNode :
    getById scenCfg3 "Ac3" = none ∧
    walkDefF (walkFuel scenCfg3) scenCfg3 defD collectVis
      = some (.ok none,
          [none, some nodeAc2, some nodeAc1, some nodeO1Linked, some nodeE1]) ∧
    some ac3Node ∉
      [(none : Option XNode), some nodeAc2, some nodeAc1, some nodeO1Linked, some nodeE1] := by
  exact ⟨by decide, by decide, by decide⟩

/-- C9: `walkDefinition` has the implicit precondition that its root is
a `definition-list`: on any element of a different category it fails at
once with the assertion error, before any visitor call (the returned
seen list is empty) and before any traversal. -/
theorem walkDefRequiresDefinitionList {α : Type} (fuel : Nat) (cfg : AlertingConfig)
    (t : String) (attrs : List (String × String)) (cs : List XNode)
    (visitor : Option XNode → XNode → Option α)
    (h : t ≠ "definition-list") :
    walkDefF fuel cfg (.elem t attrs cs) visitor = some (.error "AssertionError", []) := by
  simp [walkDefF, h]

/-- Witness for C9 at a concrete input: walking an `operation-list` node
asserts immediately. -/
theorem walkDefRequiresDefinitionListWitness :
    ("operation-list" : String) ≠ "definition-list" ∧
    walkDefF 3 scenCfg
      (.elem "operation-list" [("id", "O1")]
        [refEl "action-list" "true" "entry" "Ac1",
         refEl "action-list" "false" "entry" "Ac2"])
      collectVis = some (.error "AssertionError", []) := by
  constructor
  · decide
  · exact walkDefRequiresDefinitionList 3 scenCfg "operation-list" [("id", "O1")]
      [refEl "action-list" "true" "entry" "Ac1",
       refEl "action-list" "false" "entry" "Ac2"]
      collectVis (by decide)

/-- C10: `create_node` before any `mk_toc` call always fails — the
reference-point table is still `None`, so `self.refChild[tag]` raises
`TypeError` — and the document is left exactly as built, with nothing
inserted. -/
theorem createNodeBeforeMkTocFails (root : XNode) (tag id : String)
    (comps : List (String × Option String × String)) :
    createNode (mkConfig root) tag id comps = .error "TypeError" ∧
    (mkConfig root).root = root :=
  ⟨rfl, rfl⟩

/-!
Supporting lemmas: association-list lookups, the provenance of
`mk_toc` reference points (they are always existing top-level nodes, or
`None`), and the counting behaviour of `insertBefore`.
-/

theorem lookup_mem {β : Type} {l : List (String × β)} {a : String} {b : β}
    (h : l.lookup a = some b) : (a, b) ∈ l := by
  induction l with
  | nil => simp [List.lookup] at h
  | cons p rest ih =>
      rw [List.lookup] at h
      by_cases hk : a = p.1
      · simp [hk] at h
        exact List.mem_cons.mpr (Or.inl (Prod.ext hk h.symm))
      · simp [beq_false_of_ne hk] at h
        exact List.mem_cons_of_mem _ (ih h)

theorem lookup_append {β : Type} (l₁ l₂ : List (String × β)) (a : String) :
    (l₁ ++ l₂).lookup a =
      match l₁.lookup a with
      | some b => some b
      | none => l₂.lookup a := by
  induction l₁ with
  | nil => simp [List.lookup]
  | cons p rest ih =>
      rw [List.cons_append, List.lookup, List.lookup]
      by_cases hk : a = p.1
      · simp [hk]
      · simp [beq_false_of_ne hk, ih]

theorem tocGet_mem {pairs : List (String × XNode)} {t : String} {n : XNode}
    (h : tocGet pairs t = some n) : (t, n) ∈ pairs := by
  have := lookup_mem h
  exact (List.mem_reverse).mp this

theorem runsFirst_val_mem {n : XNode} {k : String} :
    ∀ {l : List XNode} {prev : Option String}, (k, n) ∈ runsFirst l prev → n ∈ l := by
  intro l
  induction l with
  | nil => intro prev h; simp [runsFirst] at h
  | cons c rest ih =>
      intro prev h
      rw [runsFirst] at h
      by_cases hp : prev = some (tagName c)
      · rw [if_pos hp] at h
        exact List.mem_cons_of_mem _ (ih h)
      · rw [if_neg hp] at h
        rcases List.mem_cons.mp h with h1 | h2
        · cases h1
          exact List.mem_cons_self _ _
        · exact List.mem_cons_of_mem _ (ih h2)

theorem refScan_lookup_isSome {pairs : List (String × XNode)} {t : String} :
    ∀ {ts : List String} {child : Option XNode}, t ∈ ts →
      ∃ v, (refScan pairs ts child).lookup t = some v := by
  intro ts
  induction ts with
  | nil => intro child h; simp at h
  | cons tag rest ih =>
      intro child h
      rw [refScan, List.lookup]
      by_cases hk : t = tag
      · simp [hk]
      · simp only [beq_false_of_ne hk]
        exact ih ((List.mem_cons.mp h).resolve_left hk)

theorem refScan_lookup_val {pairs : List (String × XNode)} {t : String} :
    ∀ {ts : List String} {child : Option XNode} {v : Option XNode},
      (refScan pairs ts child).lookup t = some v →
      (∀ n, child = some n → ∃ k, (k, n) ∈ pairs) →
      ∀ n, v = some n → ∃ k, (k, n) ∈ pairs := by
  intro ts
  induction ts with
  | nil => intro child v h _; simp [refScan, List.lookup] at h
  | cons tag rest ih =>
      intro child v h hchild
      rw [refScan, List.lookup] at h
      by_cases hk : t = tag
      · simp [hk] at h
        subst h
        exact hchild
      · simp only [beq_false_of_ne hk] at h
        refine ih h ?_
        intro n hn
        cases htoc : tocGet pairs tag with
        | some m =>
            rw [htoc] at hn
            cases hn
            exact ⟨tag, tocGet_mem htoc⟩
        | none =>
            rw [htoc] at hn
            exact hchild n hn

/-- Every reference point `mk_toc` computes is `None` or an existing
top-level element child — the internal consistency requirement of the
table. -/
theorem mkRefChild_val_mem {elems : List XNode} {t : String} {rc : XNode}
    (h : (mkRefChild elems).lookup t = some (some rc)) : rc ∈ elems := by
  have hv := @refScan_lookup_val (runsFirst elems none) t allowedSubelements.reverse
    none (some rc) h (by intro n hn; cases hn)
  rcases hv rc rfl with ⟨k, hk⟩
  exact runsFirst_val_mem hk

theorem insertTwoBefore_ok_of_mem (n1 n2 rc : XNode) :
    ∀ l : List XNode, rc ∈ l → ∃ cs, insertTwoBefore n1 n2 rc l = .ok cs := by
  intro l
  induction l with
  | nil => intro h; simp at h
  | cons c rest ih =>
      intro h
      rw [insertTwoBefore]
      by_cases hc : c = rc
      · exact ⟨_, by rw [if_pos hc]⟩
      · rcases ih ((List.mem_cons.mp h).resolve_left (fun he => hc he.symm)) with ⟨cs, hcs⟩
        exact ⟨c :: cs, by rw [if_neg hc, hcs]; rfl⟩

theorem insertTwoBefore_countP (p : XNode → Bool) (n1 n2 rc : XNode) :
    ∀ {l cs : List XNode}, insertTwoBefore n1 n2 rc l = .ok cs →
      cs.countP p = l.countP p
        + (if p n1 then 1 else 0) + (if p n2 then 1 else 0) := by
  intro l
  induction l with
  | nil => intro cs h; simp [insertTwoBefore] at h
  | cons c rest ih =>
      intro cs h
      rw [insertTwoBefore] at h
      by_cases hc : c = rc
      · rw [if_pos hc] at h
        cases h
        simp [List.countP_cons]
        omega
      · rw [if_neg hc] at h
        cases hrec : insertTwoBefore n1 n2 rc rest with
        | error e => rw [hrec] at h; cases h
        | ok cs' =>
            rw [hrec] at h
            cases h
            simp [List.countP_cons, ih hrec]
            omega

/-- Number of top-level element children carrying the given identifier. -/
def idCount (root : XNode) (id : String) : Nat :=
  ((topElems root).filter (fun n => getAttribute n "id" = id)).length

/-- The node a duplicate `createNode('action-list','Ac1',[])` builds in
the scenario document (which already holds `Ac1`). -/
def dupNode : XNode := mkNewNode "action-list" "Ac1" []

/-- The scenario document after the duplicate insertion. -/
def dupRoot : XNode :=
  .elem "AlertingConfig" []
    [defD, nodeE1, nodeO1, nodeAc1, nodeAc2, .text "    ", dupNode, .text "\n"]

/-- C2 counterexample: `create_node` with an identifier that already
exists in the same category does NOT fail — it succeeds and inserts a
second node with the same identifier, mutating the document (two
top-level elements now carry id `Ac1`). -/
theorem createNodeDuplicateInserted :
    tagName nodeAc1 = "action-list" ∧ getAttribute nodeAc1 "id" = "Ac1" ∧
    nodeAc1 ∈ topElems scenRoot ∧
    createNode (mkToc scenCfg) "action-list" "Ac1" []
      = .ok ({ root := dupRoot, regIds := scenCfg.regIds,
               refChild := (mkToc scenCfg).refChild }, dupNode) ∧
    idCount dupRoot "Ac1" = 2 := by
  exact ⟨by decide, by decide, by decide, by decide, by decide⟩

theorem childrenOf_setChildren {root : XNode} (h : isElem root = true)
    (cs : List XNode) : childrenOf (setChildren root cs) = cs := by
  cases root with
  | elem t a c => rfl
  | text d => simp [isElem] at h

theorem isElem_setChildren (root : XNode) (cs : List XNode) :
    isElem (setChildren root cs) = isElem root := by
  cases root <;> rfl

theorem getAttribute_mkNewNode (tag id : String)
    (comps : List (String × Option String × String)) :
    getAttribute (mkNewNode tag id comps) "id" = id := by
  simp [mkNewNode, getAttribute, List.lookup]

theorem isElem_text (d : String) : isElem (.text d) = false := rfl

theorem isElem_mkNewNode (tag id : String)
    (comps : List (String × Option String × String)) :
    isElem (mkNewNode tag id comps) = true := rfl

/-- C2 amended: `create_node` performs no duplicate-identifier check at
all.  For every configuration whose reference table was just built by
`mk_toc` and every allowed category, it succeeds and the number of
top-level elements carrying the requested identifier grows by one —
whether or not the identifier already existed. -/
theorem createNodeNoDuplicateCheck (cfg : AlertingConfig) (tag id : String)
    (comps : List (String × Option String × String))
    (htag : tag ∈ allowedSubelements) (hroot : isElem cfg.root = true) :
    ∃ cfg', createNode (mkToc cfg) tag id comps = .ok (cfg', mkNewNode tag id comps) ∧
      idCount cfg'.root id = idCount cfg.root id + 1 := by
  have htag' : tag ∈ allowedSubelements.reverse := List.mem_reverse.mpr htag
  obtain ⟨v, hv⟩ :=
    @refScan_lookup_isSome (runsFirst (topElems cfg.root) none) tag
      allowedSubelements.reverse none htag'
  have hv' : (mkRefChild (topElems cfg.root)).lookup tag = some v := hv
  have hcount : ∀ root', isElem root' = true →
      idCount root' id = (childrenOf root').countP
        (fun n => decide (getAttribute n "id" = id) && isElem n) := by
    intro root' _
    simp [idCount, topElems, List.countP_eq_length_filter, List.filter_filter]
  cases v with
  | none =>
      refine ⟨{ mkToc cfg with root := setChildren cfg.root ((childrenOf cfg.root) ++ [.text "    ", mkNewNode tag id comps, .text "\n"]) }, ?_, ?_⟩
      · simp only [createNode, mkToc, hv']
      · have hself : isElem (setChildren cfg.root
            ((childrenOf cfg.root) ++ [.text "    ", mkNewNode tag id comps, .text "\n"]))
            = true := by rw [isElem_setChildren]; exact hroot
        rw [hcount _ hroot, hcount _ hself, childrenOf_setChildren hroot]
        simp [List.countP_append, List.countP_cons, getAttribute_mkNewNode,
          isElem_mkNewNode, isElem, mkNewNode, getAttribute, List.lookup]
  | some rc =>
      have hrcmem : rc ∈ childrenOf cfg.root :=
        List.mem_of_mem_filter (mkRefChild_val_mem hv')
      obtain ⟨cs, hcs⟩ :=
        insertTwoBefore_ok_of_mem (mkNewNode tag id comps) (.text "\n    ") rc
          (childrenOf cfg.root) hrcmem
      have hself : isElem (setChildren cfg.root cs) = true := by
        rw [isElem_setChildren]; exact hroot
      refine ⟨{ mkToc cfg with root := setChildren cfg.root cs }, ?_, ?_⟩
      · simp only [createNode, mkToc, hv', hcs]
        rfl
      · rw [hcount _ hroot, hcount _ hself, childrenOf_setChildren hroot,
          insertTwoBefore_countP _ _ _ _ hcs]
        simp [getAttribute_mkNewNode, isElem_mkNewNode, isElem, mkNewNode, getAttribute,
          List.lookup]

/-- Witness for C2 amended at a concrete input: inserting a fresh
`grouped-box-list` node into the scenario document. -/
theorem createNodeNoDuplicateCheckWitness :
    ("grouped-box-list" : String) ∈ allowedSubelements ∧ isElem scenCfg.root = true ∧
    ∃ cfg', createNode (mkToc scenCfg) "grouped-box-list" "G1" []
        = .ok (cfg', mkNewNode "grouped-box-list" "G1" []) ∧
      idCount cfg'.root "G1" = idCount scenCfg.root "G1" + 1 :=
  ⟨by decide, by decide,
   createNodeNoDuplicateCheck scenCfg "grouped-box-list" "G1" [] (by decide) (by decide)⟩

/-!
Category ranks and the two ordering invariants.  `catRank` is a tag's
position in the fixed category order (7 for a foreign tag).
`firstOccOrdered` is the ordering invariant as the specification states
it: the FIRST occurrence of every category appears in the fixed order
(later occurrences unconstrained).  `orderedElems` is the stronger
discipline the source actually maintains ("they must appear in exactly
this order"): every category's nodes are contiguous and the categories
appear in the fixed order — equivalently, ranks are monotone along the
child list and every tag is an allowed category.
-/

def catRank (t : String) : Nat := allowedSubelements.indexOf t

/-- The rank of a node's category. -/
def rankOf (n : XNode) : Nat := catRank (tagName n)

/-- First occurrences of each string, in order of first appearance. -/
def dedupKeepFirst : List String → List String
  | [] => []
  | t :: rest => t :: (dedupKeepFirst rest).filter (fun s => s ≠ t)

/-- The specification's category ordering invariant: the first
occurrences of the categories, in document order, have strictly
increasing ranks. -/
def firstOccOrdered (elems : List XNode) : Prop :=
  (dedupKeepFirst (elems.map tagName)).Pairwise (fun a b => catRank a < catRank b)

/-- The contiguous discipline of the source: ranks weakly increase along
the top-level element children and all tags are allowed categories. -/
def orderedElems (elems : List XNode) : Prop :=
  elems.Pairwise (fun a b => rankOf a ≤ rankOf b) ∧
    ∀ n ∈ elems, tagName n ∈ allowedSubelements

instance (elems : List XNode) : Decidable (firstOccOrdered elems) := by
  unfold firstOccOrdered; infer_instance

instance (elems : List XNode) : Decidable (orderedElems elems) := by
  unfold orderedElems
  exact instDecidableAnd

/-- Modelled from the spec: the reference point the claim describes —
"the first existing node of a later category", i.e. the first element
in document order whose category ranks strictly after the given one in
the fixed order (`none` when no such node exists; a category with no
nodes of its own thereby inherits the insertion point of the next
category that has one). -/
def specRefPoint (elems : List XNode) (tag : String) : Option XNode :=
  elems.find? (fun n => catRank tag < rankOf n)

def cexD1 : XNode := .elem "definition-list" [("name", "d1")] []
def cexE1 : XNode := .elem "entry-point-list" [("id", "e1")] []
def cexD2 : XNode := .elem "definition-list" [("name", "d2")] []

/-- A document satisfying the spec's (first-occurrence) ordering
invariant in which a category's nodes are not contiguous. -/
def cexElems : List XNode := [cexD1, cexE1, cexD2]

/-- C6 counterexample: on a document that satisfies the claimed
hypothesis (the category ordering invariant on first occurrences),
`mk_toc` computes as the `adapter-list` reference point the first node
of the LAST run of the nearest later category — `d2` — and not the
first existing node of a later category, `d1`: the `groupby`-built toc
dict is overwritten by later runs of an already-seen category. -/
theorem mkTocRefPointNotFirstNode :
    firstOccOrdered cexElems ∧
    (mkRefChild cexElems).lookup "adapter-list" = some (some cexD2) ∧
    specRefPoint cexElems "adapter-list" = some cexD1 ∧
    cexD1 ≠ cexD2 := by
  exact ⟨by decide, by decide, by decide, by decide⟩

theorem rank_inj : ∀ a ∈ allowedSubelements, ∀ b ∈ allowedSubelements,
    catRank a = catRank b → a = b := by decide

theorem runsFirst_key_eq {k : String} {n : XNode} :
    ∀ {l : List XNode} {prev : Option String}, (k, n) ∈ runsFirst l prev →
      tagName n = k := by
  intro l
  induction l with
  | nil => intro prev h; simp [runsFirst] at h
  | cons c rest ih =>
      intro prev h
      rw [runsFirst] at h
      by_cases hp : prev = some (tagName c)
      · rw [if_pos hp] at h
        exact ih h
      · rw [if_neg hp] at h
        rcases List.mem_cons.mp h with h1 | h2
        · cases h1; rfl
        · exact ih h2

theorem tocGet_runsFirst_eq_none {q : String} {l : List XNode} {prev : Option String}
    (h : ∀ n ∈ l, tagName n ≠ q) : tocGet (runsFirst l prev) q = none := by
  cases htoc : tocGet (runsFirst l prev) q with
  | none => rfl
  | some n =>
      have hm := tocGet_mem htoc
      exact absurd (runsFirst_key_eq hm) (h n (runsFirst_val_mem hm))

theorem runsFirst_some_eq_dropWhile : ∀ (l : List XNode) (p : String),
    runsFirst l (some p) = runsFirst (l.dropWhile (fun n => tagName n = p)) none := by
  intro l
  induction l with
  | nil => intro p; rfl
  | cons c rest ih =>
      intro p
      rw [List.dropWhile_cons]
      by_cases hp : tagName c = p
      · rw [runsFirst, if_pos (by rw [hp]), if_pos (by simp [hp]), ih]
      · rw [runsFirst, if_neg (by intro he; injection he with he'; exact hp he'.symm),
          if_neg (by simp [hp]), runsFirst, if_neg (by simp)]

theorem dropWhile_no_tag {p : String} (hpal : p ∈ allowedSubelements) :
    ∀ (l : List XNode), l.Pairwise (fun a b => rankOf a ≤ rankOf b) →
      (∀ n ∈ l, tagName n ∈ allowedSubelements) →
      (∀ n ∈ l, catRank p ≤ rankOf n) →
      ∀ n ∈ l.dropWhile (fun m => tagName m = p), tagName n ≠ p := by
  intro l
  induction l with
  | nil => intro _ _ _ n hn; simp at hn
  | cons d rest ih =>
      intro hpair hal hge n hn
      rw [List.dropWhile_cons] at hn
      by_cases hd : tagName d = p
      · rw [if_pos (by simp [hd])] at hn
        exact ih hpair.of_cons (fun m hm => hal m (List.mem_cons_of_mem _ hm))
          (fun m hm => hge m (List.mem_cons_of_mem _ hm)) n hn
      · rw [if_neg (by simp [hd])] at hn
        rcases List.mem_cons.mp hn with rfl | hn'
        · exact hd
        · intro htag
          have h1 : rankOf d ≤ rankOf n := (List.pairwise_cons.mp hpair).1 n hn'
          have h2 : catRank p ≤ rankOf d := hge d (List.mem_cons_self _ _)
          have h3 : rankOf d ≠ catRank p := by
            intro he
            exact hd (rank_inj _ (hal d (List.mem_cons_self _ _)) _ hpal he)
          have h4 : rankOf n = catRank p := by simp [rankOf, htag]
          omega

/-- Under the contiguous ordering discipline, the `groupby`-built toc
entry of a category is the first node of that category in document
order. -/
theorem tocGet_runsFirst_ordered (q : String) :
    ∀ (k : Nat) (l : List XNode), l.length ≤ k →
      l.Pairwise (fun a b => rankOf a ≤ rankOf b) →
      (∀ n ∈ l, tagName n ∈ allowedSubelements) →
      tocGet (runsFirst l none) q = l.find? (fun n => tagName n = q) := by
  intro k
  induction k with
  | zero =>
      intro l hl _ _
      have : l = [] := List.eq_nil_of_length_eq_zero (Nat.le_zero.mp hl)
      subst this
      rfl
  | succ k ih =>
      intro l hl hpair hal
      match l with
      | [] => rfl
      | c :: rest =>
          rw [runsFirst, if_neg (by simp), runsFirst_some_eq_dropWhile]
          have hsplit : tocGet ((tagName c, c) ::
              runsFirst (rest.dropWhile (fun n => tagName n = tagName c)) none) q
              = match tocGet (runsFirst (rest.dropWhile (fun n => tagName n = tagName c)) none) q with
                | some v => some v
                | none => if q = tagName c then some c else none := by
            rw [tocGet, List.reverse_cons, lookup_append]
            have hsingle : (([(tagName c, c)] : List (String × XNode))).lookup q
                = if q = tagName c then some c else none := by
              rw [List.lookup]
              by_cases hq : q = tagName c
              · simp [hq]
              · simp [beq_false_of_ne hq, hq, List.lookup]
            rw [← tocGet, hsingle]
            cases tocGet (runsFirst (rest.dropWhile (fun n => tagName n = tagName c)) none) q <;> rfl
          rw [hsplit]
          by_cases hq : q = tagName c
          · have hnone : tocGet (runsFirst (rest.dropWhile (fun n => tagName n = tagName c)) none) q
                = none := by
              apply tocGet_runsFirst_eq_none
              intro n hn htag
              have := dropWhile_no_tag (hal c (List.mem_cons_self _ _)) rest
                hpair.of_cons (fun m hm => hal m (List.mem_cons_of_mem _ hm))
                (fun m hm => (List.pairwise_cons.mp hpair).1 m hm) n hn
              rw [hq] at htag
              exact this htag
            rw [hnone, List.find?_cons_of_pos _ (by simp [hq]), if_pos hq]
          · have hlen : (rest.dropWhile (fun n => tagName n = tagName c)).length ≤ k := by
              have h1 := (List.dropWhile_sublist (l := rest)
                (fun n => decide (tagName n = tagName c))).length_le
              have h2 : rest.length ≤ k := by
                simpa using Nat.le_of_succ_le_succ hl
              omega
            have hsub : List.Sublist (rest.dropWhile (fun n => tagName n = tagName c)) rest :=
              List.dropWhile_sublist _
            have hrec := ih (rest.dropWhile (fun n => tagName n = tagName c)) hlen
              (hpair.of_cons.sublist hsub)
              (fun m hm => hal m (List.mem_cons_of_mem _ (hsub.mem hm)))
            rw [hrec, List.find?_cons_of_neg _
              (by simp only [decide_eq_true_eq]; exact fun h => hq h.symm)]
            have hfindsplit : rest.find? (fun n => tagName n = q)
                = (rest.dropWhile (fun n => tagName n = tagName c)).find?
                    (fun n => tagName n = q) := by
              conv =>
                lhs
                rw [← List.takeWhile_append_dropWhile
                  (p := fun n => decide (tagName n = tagName c)) (l := rest)]
              rw [List.find?_append]
              have : (rest.takeWhile (fun n => tagName n = tagName c)).find?
                  (fun n => tagName n = q) = none := by
                rw [List.find?_eq_none]
                intro x hx
                have := List.mem_takeWhile_imp hx
                simp only [decide_eq_true_eq] at this
                simp only [this, decide_eq_true_eq]
                exact fun h => hq h.symm
              rw [this, Option.none_or]
            rw [hfindsplit]
            cases (rest.dropWhile (fun n => tagName n = tagName c)).find?
                (fun n => tagName n = q) with
            | none => rw [if_neg hq]
            | some v => rfl

theorem refScan_lookup_eq {pairs : List (String × XNode)} (t : String) :
    ∀ (pre : List String), ∀ (post : List String) (child : Option XNode), t ∉ pre →
      (refScan pairs (pre ++ t :: post) child).lookup t
        = some (pre.foldl (fun c tag => match tocGet pairs tag with
            | some n => some n
            | none => c) child) := by
  intro pre
  induction pre with
  | nil =>
      intro post child _
      rw [List.nil_append, refScan, List.lookup]
      simp
  | cons s pre' ih =>
      intro post child hnpre
      rw [List.cons_append, refScan, List.lookup]
      have hts : ¬ t = s := fun h => hnpre (h ▸ List.mem_cons_self _ _)
      simp only [beq_false_of_ne hts]
      rw [List.foldl_cons]
      exact ih post _ (fun h => hnpre (List.mem_cons_of_mem _ h))

theorem foldl_reverse_findSome {pairs : List (String × XNode)} :
    ∀ (l : List String) (c₀ : Option XNode),
      l.reverse.foldl (fun c tag => match tocGet pairs tag with
          | some n => some n
          | none => c) c₀
        = match l.findSome? (fun c => tocGet pairs c) with
          | some n => some n
          | none => c₀ := by
  intro l
  induction l with
  | nil => intro c₀; rfl
  | cons a l' ih =>
      intro c₀
      rw [List.reverse_cons, List.foldl_append, List.findSome?_cons]
      cases ha : tocGet pairs a with
      | some n =>
          rw [List.foldl_cons, List.foldl_nil, ha]
      | none =>
          rw [List.foldl_cons, List.foldl_nil, ha, ih]

theorem findSome_congr {β : Type} (f g : String → Option β) :
    ∀ (cats : List String), (∀ c ∈ cats, f c = g c) →
      cats.findSome? f = cats.findSome? g := by
  intro cats
  induction cats with
  | nil => intro _; rfl
  | cons a rest ih =>
      intro h
      rw [List.findSome?_cons, List.findSome?_cons, h a (List.mem_cons_self _ _),
        ih (fun c hc => h c (List.mem_cons_of_mem _ hc))]

theorem findSome_first {β : Type} (f : String → Option β) :
    ∀ (cats : List String), cats.Pairwise (fun a b => catRank a < catRank b) →
      ∀ tc, tc ∈ cats → (∀ c ∈ cats, catRank c < catRank tc → f c = none) →
      ∀ b, f tc = some b → cats.findSome? f = some b := by
  intro cats
  induction cats with
  | nil => intro _ tc htc; simp at htc
  | cons c₀ rest ih =>
      intro hsorted tc htc hnone b hb
      rw [List.findSome?_cons]
      rcases List.mem_cons.mp htc with rfl | htc'
      · rw [hb]
      · have hrank : catRank c₀ < catRank tc :=
          (List.pairwise_cons.mp hsorted).1 tc htc'
        rw [hnone c₀ (List.mem_cons_self _ _) hrank]
        exact ih (List.pairwise_cons.mp hsorted).2 tc htc'
          (fun c hc hr => hnone c (List.mem_cons_of_mem _ hc) hr) b hb

/-- On a rank-monotone document, the first node ranking above `k` is
found by trying the categories above `k` in increasing rank order and
taking the first category that has a node. -/
theorem find_rank_eq_findSome (k : Nat) (cats : List String)
    (hsorted : cats.Pairwise (fun a b => catRank a < catRank b))
    (hcats : ∀ c ∈ cats, k < catRank c) :
    ∀ (elems : List XNode), elems.Pairwise (fun a b => rankOf a ≤ rankOf b) →
      (∀ n ∈ elems, k < rankOf n → tagName n ∈ cats) →
      elems.find? (fun n => k < rankOf n)
        = cats.findSome? (fun c => elems.find? (fun n => tagName n = c)) := by
  intro elems
  induction elems with
  | nil =>
      intro _ _
      have : ∀ c ∈ cats, ([] : List XNode).find? (fun n => tagName n = c) = none := by
        intro c _; rfl
      rw [findSome_congr _ (fun _ => none) cats this]
      have : ∀ (cs : List String), cs.findSome? (fun _ => (none : Option XNode)) = none := by
        intro cs
        induction cs with
        | nil => rfl
        | cons a r ihr => rw [List.findSome?_cons]; exact ihr
      rw [this]
      rfl
  | cons n elems' ih =>
      intro hpair hcover
      by_cases hk : k < rankOf n
      · rw [List.find?_cons_of_pos _ (by simp [hk])]
        have htc : tagName n ∈ cats := hcover n (List.mem_cons_self _ _) hk
        refine (findSome_first _ cats hsorted (tagName n) htc ?_ n ?_).symm
        · intro c hc hr
          rw [List.find?_eq_none]
          intro x hx htag
          simp only [decide_eq_true_eq] at htag
          rcases List.mem_cons.mp hx with rfl | hx'
          · rw [htag] at hr
            exact absurd hr (lt_irrefl _)
          · have h1 : rankOf n ≤ rankOf x := (List.pairwise_cons.mp hpair).1 x hx'
            have h2 : catRank (tagName x) = catRank c := by rw [htag]
            have h3 : rankOf x = catRank (tagName x) := rfl
            have h4 : rankOf n = catRank (tagName n) := rfl
            omega
        · exact List.find?_cons_of_pos _ (by simp)
      · rw [List.find?_cons_of_neg _ (by simp [hk])]
        have hstep : ∀ c ∈ cats, (n :: elems').find? (fun m => tagName m = c)
            = elems'.find? (fun m => tagName m = c) := by
          intro c hc
          refine List.find?_cons_of_neg _ ?_
          simp only [decide_eq_true_eq]
          intro htag
          have : rankOf n = catRank c := by simp [rankOf, htag]
          have := hcats c hc
          omega
        rw [findSome_congr _ _ cats hstep]
        exact ih (List.pairwise_cons.mp hpair).2
          (fun m hm hr => hcover m (List.mem_cons_of_mem _ hm) hr)

/-- Categories strictly later than `t` in the fixed order, in order. -/
def laterCats (t : String) : List String :=
  allowedSubelements.filter (fun c => catRank t < catRank c)

/-- Categories strictly earlier than `t`, reversed. -/
def earlierCats (t : String) : List String :=
  (allowedSubelements.filter (fun c => catRank c < catRank t)).reverse

theorem laterCats_sorted (t : String) :
    (laterCats t).Pairwise (fun a b => catRank a < catRank b) := by
  have h : allowedSubelements.Pairwise (fun a b => catRank a < catRank b) := by decide
  exact h.filter _

theorem laterCats_rank {t c : String} (hc : c ∈ laterCats t) : catRank t < catRank c := by
  have := List.mem_filter.mp hc
  simpa using this.2

theorem mem_laterCats {t c : String} (hal : c ∈ allowedSubelements)
    (hr : catRank t < catRank c) : c ∈ laterCats t :=
  List.mem_filter.mpr ⟨hal, by simpa using hr⟩

theorem allowed_decomp : ∀ s ∈ allowedSubelements,
    allowedSubelements.reverse = (laterCats s).reverse ++ s :: earlierCats s := by
  decide

theorem not_mem_laterCats_rev : ∀ s ∈ allowedSubelements,
    s ∉ (laterCats s).reverse := by
  decide

/-- C6 amended: on a document whose top-level element children keep each
category contiguous and in the fixed order (the discipline the source
demands — the claim's weaker first-occurrence invariant is not enough,
see the counterexample), `mk_toc` computes as every allowed category's
reference point exactly the first node in document order whose category
is strictly later in the fixed order; a category with no nodes of its
own thereby inherits the insertion point of the next category that has
one, and the reference point is `None` when no later node exists. -/
theorem mkRefChildOrdered (elems : List XNode) (t : String)
    (ho : orderedElems elems) (ht : t ∈ allowedSubelements) :
    (mkRefChild elems).lookup t = some (specRefPoint elems t) := by
  obtain ⟨hpair, hal⟩ := ho
  have h1 : (mkRefChild elems).lookup t
      = some ((laterCats t).reverse.foldl
          (fun c tag => match tocGet (runsFirst elems none) tag with
            | some n => some n
            | none => c) none) := by
    rw [mkRefChild, allowed_decomp t ht]
    exact refScan_lookup_eq t _ _ none (not_mem_laterCats_rev t ht)
  rw [h1, foldl_reverse_findSome]
  have htoc : ∀ c ∈ laterCats t, tocGet (runsFirst elems none) c
      = elems.find? (fun n => tagName n = c) :=
    fun c _ => tocGet_runsFirst_ordered c elems.length elems le_rfl hpair hal
  rw [findSome_congr _ _ _ htoc]
  rw [← find_rank_eq_findSome (catRank t) (laterCats t) (laterCats_sorted t)
    (fun c hc => laterCats_rank hc) elems hpair
    (fun n hn hr => mem_laterCats (hal n hn) hr)]
  rw [specRefPoint]
  cases elems.find? (fun n => catRank t < rankOf n) <;> rfl

/-- Witness for C6 amended at a concrete input: the scenario document
is contiguously ordered, and the `definition-list` reference point is
its first entry-point node. -/
theorem mkRefChildOrderedWitness :
    orderedElems (topElems scenRoot) ∧
    ("definition-list" : String) ∈ allowedSubelements ∧
    (mkRefChild (topElems scenRoot)).lookup "definition-list"
      = some (specRefPoint (topElems scenRoot) "definition-list") :=
  ⟨by decide, by decide, mkRefChildOrdered _ _ (by decide) (by decide)⟩

theorem first_occ_unique {rc : XNode} :
    ∀ {A A' B B' : List XNode}, rc ∉ A → rc ∉ A' →
      A ++ rc :: B = A' ++ rc :: B' → A = A' ∧ B = B' := by
  intro A
  induction A with
  | nil =>
      intro A' B B' _ hA' he
      cases A' with
      | nil => simpa using he
      | cons x A'' =>
          simp only [List.nil_append, List.cons_append, List.cons.injEq] at he
          exact absurd (he.1 ▸ List.mem_cons_self _ _) hA'
  | cons a A₂ ih =>
      intro A' B B' hA hA' he
      cases A' with
      | nil =>
          simp only [List.cons_append, List.nil_append, List.cons.injEq] at he
          exact absurd (List.mem_cons.mpr (Or.inl he.1.symm)) hA
      | cons a' A₂' =>
          simp only [List.cons_append, List.cons.injEq] at he
          have hr := ih (fun h => hA (List.mem_cons_of_mem _ h))
            (fun h => hA' (List.mem_cons_of_mem _ h)) he.2
          exact ⟨by rw [he.1, hr.1], hr.2⟩

theorem insertTwoBefore_split (n1 n2 rc : XNode) :
    ∀ {l cs : List XNode}, insertTwoBefore n1 n2 rc l = .ok cs →
      ∃ l₁ l₂, l = l₁ ++ rc :: l₂ ∧ rc ∉ l₁ ∧ cs = l₁ ++ n1 :: n2 :: rc :: l₂ := by
  intro l
  induction l with
  | nil => intro cs h; simp [insertTwoBefore] at h
  | cons c rest ih =>
      intro cs h
      rw [insertTwoBefore] at h
      by_cases hc : c = rc
      · rw [if_pos hc] at h
        cases h
        exact ⟨[], rest, by simp [hc], by simp, by simp [hc]⟩
      · rw [if_neg hc] at h
        cases hrec : insertTwoBefore n1 n2 rc rest with
        | error e => rw [hrec] at h; cases h
        | ok cs' =>
            rw [hrec] at h
            simp only [Except.map] at h
            cases h
            rcases ih hrec with ⟨l₁, l₂, he, hn, hcs⟩
            refine ⟨c :: l₁, l₂, by simp [he], ?_, by simp [hcs]⟩
            intro hmem
            rcases List.mem_cons.mp hmem with h1 | h2
            · exact hc h1.symm
            · exact hn h2

theorem pairwise_lt_of_le_nodup :
    ∀ (l : List String), l.Pairwise (fun a b => catRank a ≤ catRank b) →
      l.Nodup → (∀ s ∈ l, s ∈ allowedSubelements) →
      l.Pairwise (fun a b => catRank a < catRank b) := by
  intro l
  induction l with
  | nil => intro _ _ _; exact List.Pairwise.nil
  | cons a rest ih =>
      intro hle hnd hal
      rw [List.pairwise_cons] at hle ⊢
      refine ⟨?_, ih hle.2 (List.nodup_cons.mp hnd).2
        (fun s hs => hal s (List.mem_cons_of_mem _ hs))⟩
      intro b hb
      have h1 := hle.1 b hb
      have h2 : a ≠ b := fun he => (List.nodup_cons.mp hnd).1 (he ▸ hb)
      have h3 : catRank a ≠ catRank b := fun he =>
        h2 (rank_inj _ (hal a (List.mem_cons_self _ _)) _
          (hal b (List.mem_cons_of_mem _ hb)) he)
      omega

theorem dedupKeepFirst_sublist : ∀ (l : List String),
    List.Sublist (dedupKeepFirst l) l := by
  intro l
  induction l with
  | nil => exact List.Sublist.refl _
  | cons t rest ih =>
      rw [dedupKeepFirst]
      exact List.Sublist.cons₂ t ((List.filter_sublist _).trans ih)

theorem dedupKeepFirst_nodup : ∀ (l : List String), (dedupKeepFirst l).Nodup := by
  intro l
  induction l with
  | nil => exact List.Pairwise.nil
  | cons t rest ih =>
      rw [dedupKeepFirst, List.nodup_cons]
      refine ⟨?_, ih.filter _⟩
      intro hmem
      have := List.of_mem_filter hmem
      simp at this

/-- The contiguous discipline implies the specification's
first-occurrence ordering invariant. -/
theorem ordered_firstOcc {elems : List XNode} (ho : orderedElems elems) :
    firstOccOrdered elems := by
  obtain ⟨hpair, hal⟩ := ho
  have hmap : (elems.map tagName).Pairwise (fun a b => catRank a ≤ catRank b) :=
    List.pairwise_map.mpr hpair
  have hsub := dedupKeepFirst_sublist (elems.map tagName)
  refine pairwise_lt_of_le_nodup _ (hmap.sublist hsub)
    (dedupKeepFirst_nodup _) ?_
  intro s hs
  rcases List.mem_map.mp (hsub.mem hs) with ⟨n, hn, rfl⟩
  exact hal n hn

/-- One `mk_toc`-then-`create_node` step on a contiguously ordered
document succeeds and keeps the document contiguously ordered: the new
node lands directly before the first node of a strictly later category
(or at the end when none exists). -/
theorem createNode_preserves_ordered (cfg : AlertingConfig) (tag id : String)
    (comps : List (String × Option String × String))
    (htag : tag ∈ allowedSubelements) (hroot : isElem cfg.root = true)
    (ho : orderedElems (topElems cfg.root)) :
    ∃ cfg', createNode (mkToc cfg) tag id comps = .ok (cfg', mkNewNode tag id comps) ∧
      isElem cfg'.root = true ∧ orderedElems (topElems cfg'.root) := by
  have hlk := mkRefChildOrdered (topElems cfg.root) tag ho htag
  obtain ⟨hpair, hal⟩ := ho
  cases hfind : specRefPoint (topElems cfg.root) tag with
  | none =>
      rw [hfind] at hlk
      refine ⟨{ mkToc cfg with root := setChildren cfg.root ((childrenOf cfg.root) ++ [.text "    ", mkNewNode tag id comps, .text "\n"]) }, ?_, ?_, ?_⟩
      · simp only [createNode, mkToc, hlk]
      · rw [isElem_setChildren]; exact hroot
      · have htop : topElems (setChildren cfg.root ((childrenOf cfg.root)
            ++ [.text "    ", mkNewNode tag id comps, .text "\n"]))
            = topElems cfg.root ++ [mkNewNode tag id comps] := by
          rw [topElems, childrenOf_setChildren hroot, List.filter_append]
          simp [List.filter_cons, isElem_mkNewNode, isElem_text, topElems]
        rw [htop]
        have hbound : ∀ a ∈ topElems cfg.root, rankOf a ≤ catRank tag := by
          intro a ha
          have := List.find?_eq_none.mp hfind a ha
          simp only [decide_eq_true_eq] at this
          omega
        constructor
        · rw [List.pairwise_append]
          refine ⟨hpair, List.pairwise_singleton _ _, ?_⟩
          intro a ha b hb
          rcases List.mem_singleton.mp hb with rfl
          exact hbound a ha
        · intro n hn
          rcases List.mem_append.mp hn with h1 | h2
          · exact hal n h1
          · rcases List.mem_singleton.mp h2 with rfl
            exact htag
  | some rc =>
      rw [hfind] at hlk
      have hfind' : (topElems cfg.root).find? (fun n => catRank tag < rankOf n)
          = some rc := hfind
      obtain ⟨hp_rc, as, bs, hsplit, has⟩ := List.find?_eq_some.mp hfind'
      simp only [decide_eq_true_eq] at hp_rc
      have hrc_elems : rc ∈ topElems cfg.root := by
        rw [hsplit]; exact List.mem_append.mpr (Or.inr (List.mem_cons_self _ _))
      have hrc_elem : isElem rc = true := List.of_mem_filter hrc_elems
      have hrc_child : rc ∈ childrenOf cfg.root := List.mem_of_mem_filter hrc_elems
      obtain ⟨cs, hcs⟩ := insertTwoBefore_ok_of_mem (mkNewNode tag id comps)
        (.text "\n    ") rc _ hrc_child
      obtain ⟨l₁, l₂, hl, hnl₁, hcs_eq⟩ := insertTwoBefore_split _ _ _ hcs
      refine ⟨{ mkToc cfg with root := setChildren cfg.root cs }, ?_, ?_, ?_⟩
      · simp only [createNode, mkToc, hlk, hcs]; rfl
      · rw [isElem_setChildren]; exact hroot
      · subst hcs_eq
        have htop : topElems (setChildren cfg.root
              (l₁ ++ mkNewNode tag id comps :: XNode.text "\n    " :: rc :: l₂))
            = l₁.filter (fun c => isElem c)
              ++ mkNewNode tag id comps :: rc :: l₂.filter (fun c => isElem c) := by
          rw [topElems, childrenOf_setChildren hroot, List.filter_append]
          simp [List.filter_cons, isElem_mkNewNode, isElem_text, hrc_elem]
        have helems : topElems cfg.root
            = l₁.filter (fun c => isElem c) ++ rc :: l₂.filter (fun c => isElem c) := by
          rw [topElems, hl, List.filter_append]
          simp [List.filter_cons, hrc_elem]
        have hABeq : l₁.filter (fun c => isElem c) = as
            ∧ l₂.filter (fun c => isElem c) = bs := by
          refine first_occ_unique ?_ ?_ (helems.symm.trans hsplit)
          · intro hmem
            exact hnl₁ (List.mem_of_mem_filter hmem)
          · intro hmem
            have := has rc hmem
            simp only [decide_eq_true_eq, Bool.not_eq_true'] at this
            rw [decide_eq_false_iff_not] at this
            exact this hp_rc
        rw [htop, hABeq.1, hABeq.2]
        have hsplit_pair := hsplit ▸ hpair
        rw [List.pairwise_append] at hsplit_pair
        obtain ⟨pAs, pRcBs, cross⟩ := hsplit_pair
        have hbound_as : ∀ a ∈ as, rankOf a ≤ catRank tag := by
          intro a ha
          have := has a ha
          simp only [Bool.not_eq_true', decide_eq_false_iff_not] at this
          omega
        constructor
        · rw [List.pairwise_append]
          refine ⟨pAs, ?_, ?_⟩
          · rw [List.pairwise_cons]
            refine ⟨?_, pRcBs⟩
            intro b hb
            rcases List.mem_cons.mp hb with rfl | hb'
            · have : rankOf (mkNewNode tag id comps) = catRank tag := rfl
              omega
            · have h1 := (List.pairwise_cons.mp pRcBs).1 b hb'
              have h2 : rankOf (mkNewNode tag id comps) = catRank tag := rfl
              omega
          · intro a ha b hb
            rcases List.mem_cons.mp hb with rfl | hb'
            · have h2 : rankOf (mkNewNode tag id comps) = catRank tag := rfl
              have := hbound_as a ha
              omega
            · exact cross a ha b hb'
        · intro n hn
          rcases List.mem_append.mp hn with h1 | h2
          · exact hal n (by rw [hsplit]; exact List.mem_append.mpr (Or.inl h1))
          · rcases List.mem_cons.mp h2 with rfl | h3
            · exact htag
            · exact hal n (by rw [hsplit]; exact List.mem_append.mpr (Or.inr h3))

/-- A batch of requested nodes, each applied as the caller's protocol
requires: rebuild the reference table (`mk_toc`), then `create_node`. -/
def applyReqs : AlertingConfig →
    List (String × String × List (String × Option String × String)) →
    Except String AlertingConfig
  | cfg, [] => .ok cfg
  | cfg, (tag, id, comps) :: rest =>
      match createNode (mkToc cfg) tag id comps with
      | .error e => .error e
      | .ok (cfg', _) => applyReqs cfg' rest

/-- C5: starting from any document obeying the order discipline (e.g. an
empty one, or any well-formed alerting file), every sequence of
`mk_toc`-then-`create_node` insertions, in any interleaving of allowed
categories, succeeds and leaves the document's direct children
satisfying the category ordering invariant: the first occurrence of
every category appears in the fixed category order. -/
theorem createNodeSequenceKeepsCategoryOrder (cfg : AlertingConfig)
    (reqs : List (String × String × List (String × Option String × String)))
    (hroot : isElem cfg.root = true)
    (ho : orderedElems (topElems cfg.root))
    (htags : ∀ r ∈ reqs, r.1 ∈ allowedSubelements) :
    ∃ cfg', applyReqs cfg reqs = .ok cfg' ∧ firstOccOrdered (topElems cfg'.root) := by
  induction reqs generalizing cfg with
  | nil => exact ⟨cfg, rfl, ordered_firstOcc ho⟩
  | cons r rest ih =>
      obtain ⟨tag, id, comps⟩ := r
      obtain ⟨cfg', hok, helem, hord⟩ := createNode_preserves_ordered cfg tag id comps
        (htags _ (List.mem_cons_self _ _)) hroot ho
      obtain ⟨cfgF, happ, hfo⟩ := ih cfg' helem hord
        (fun r hr => htags r (List.mem_cons_of_mem _ hr))
      refine ⟨cfgF, ?_, hfo⟩
      rw [applyReqs, hok]
      exact happ

/-- Witness for C5 at a concrete input: four interleaved insertions into
an initially empty document. -/
theorem createNodeSequenceKeepsCategoryOrderWitness :
    isElem (XNode.elem "AlertingConfig" [] []) = true ∧
    orderedElems (topElems (XNode.elem "AlertingConfig" [] [])) ∧
    (∀ r ∈ [("action-list", "a1", ([] : List (String × Option String × String))),
            ("definition-list", "d1", []), ("action-list", "a2", []),
            ("adapter-list", "ad1", [])], r.1 ∈ allowedSubelements) ∧
    ∃ cfg', applyReqs (mkConfig (XNode.elem "AlertingConfig" [] []))
        [("action-list", "a1", []), ("definition-list", "d1", []),
         ("action-list", "a2", []), ("adapter-list", "ad1", [])] = .ok cfg' ∧
      firstOccOrdered (topElems cfg'.root) :=
  ⟨by decide, by decide, by decide,
   createNodeSequenceKeepsCategoryOrder _ _ (by decide) (by decide) (by decide)⟩

/-!
The cyclic document for the orphan-checker's recursive helper:
operation `A` references operation `B` and `B` references `A`.
-/

def cycA : XNode :=
  .elem "operation-list" [("id", "A")]
    [refEl "operation-list" "true" "entry" "B"]

def cycB : XNode :=
  .elem "operation-list" [("id", "B")]
    [refEl "operation-list" "true" "entry" "A"]

def cycIdx : List (String × XNode) := idxPairs [cycA, cycB]

theorem helperOrphF_succ (idx : List (String × XNode)) (tag : String) (n : Nat)
    (nodes : List XNode) :
    helperOrphF idx tag (n + 1) nodes = helperOrphGo tag (fun marked2 =>
      match resolveAll idx marked2 with
      | .error e => some (.error e)
      | .ok resolved => helperOrphF idx tag n resolved) nodes := rfl

theorem helperOrphGo_cons_none (tag : String)
    (sub : List String → Option (Except String (List String))) (node : XNode)
    (rest : List XNode)
    (hne : ((refTexts tag node).dedup).isEmpty = false)
    (h : sub ((refTexts tag node).dedup) = none) :
    helperOrphGo tag sub (node :: rest) = none := by
  rw [helperOrphGo]
  simp only [hne, Bool.false_eq_true, if_false, h]

/-- C4: the orphan checker's recursive `liveOperations` helper carries
no visited set, so on the finite document in which operation `A`
references operation `B` and `B` references `A` the recursion never
terminates: no amount of fuel lets the fueled model produce a result
(in Python this is an unbounded recursion ending in `RecursionError`),
contradicting the claim that it terminates on every finite document. -/
theorem orphanHelperDiverges : ∀ fuel,
    helperOrphF cycIdx "operation-list" fuel [cycA] = none ∧
    helperOrphF cycIdx "operation-list" fuel [cycB] = none := by
  intro fuel
  induction fuel with
  | zero => exact ⟨by decide, by decide⟩
  | succ n ih =>
      constructor
      · refine helperOrphGo_cons_none "operation-list"
          (fun marked2 =>
            match resolveAll cycIdx marked2 with
            | .error e => some (.error e)
            | .ok resolved => helperOrphF cycIdx "operation-list" n resolved)
          cycA [] (by decide) ?_
        show (match resolveAll cycIdx ["B"] with
          | .error e => some (.error e)
          | .ok resolved => helperOrphF cycIdx "operation-list" n resolved) = none
        have hres : resolveAll cycIdx ["B"] = .ok [cycB] := by decide
        rw [hres]
        exact ih.2
      · refine helperOrphGo_cons_none "operation-list"
          (fun marked2 =>
            match resolveAll cycIdx marked2 with
            | .error e => some (.error e)
            | .ok resolved => helperOrphF cycIdx "operation-list" n resolved)
          cycB [] (by decide) ?_
        show (match resolveAll cycIdx ["A"] with
          | .error e => some (.error e)
          | .ok resolved => helperOrphF cycIdx "operation-list" n resolved) = none
        have hres : resolveAll cycIdx ["A"] = .ok [cycA] := by decide
        rw [hres]
        exact ih.1

/-!
Termination and single-visit guarantees of `walkDefinition`.  Every
element the traversal marks seen is a `getElementById` result, i.e.
either `None` or a top-level element child, so the seen list lives
inside a finite universe; since each insertion strictly grows it, the
fuel bound `walkFuel` suffices.
-/

/-- The values `getElementById` can produce on this configuration. -/
def walkUniverse (cfg : AlertingConfig) : List (Option XNode) :=
  none :: (topElems cfg.root).map some

/-- Invariant of the traversal's seen list: no duplicates (each node is
visited at most once) and every entry is a possible resolution. -/
def walkInv (cfg : AlertingConfig) (s : List (Option XNode)) : Prop :=
  s.Nodup ∧ ∀ x ∈ s, x ∈ walkUniverse cfg

/-- Resolution hypothesis for the amended dangling-reference claim:
every operation reference anywhere in a top-level node resolves. -/
def resolvesOps (cfg : AlertingConfig) : Prop :=
  ∀ n ∈ topElems cfg.root, ∀ r ∈ elemsByTag "operation-list" n,
    getById cfg (getText r) ≠ none

instance (cfg : AlertingConfig) : Decidable (resolvesOps cfg) := by
  unfold resolvesOps
  infer_instance

theorem getById_mem_universe (cfg : AlertingConfig) (q : String) :
    getById cfg q ∈ walkUniverse cfg := by
  rw [getById]
  by_cases hq : q ∈ cfg.regIds
  · rw [if_pos hq]
    cases hf : (topElems cfg.root).find? (fun n => getAttribute n "id" = q) with
    | none => exact List.mem_cons_self _ _
    | some n =>
        exact List.mem_cons_of_mem _
          (List.mem_map_of_mem _ (List.mem_of_find?_eq_some hf))
  · rw [if_neg hq]
    exact List.mem_cons_self _ _

theorem getById_some_mem {cfg : AlertingConfig} {q : String} {n : XNode}
    (h : getById cfg q = some n) : n ∈ topElems cfg.root := by
  rw [getById] at h
  by_cases hq : q ∈ cfg.regIds
  · rw [if_pos hq] at h
    exact List.mem_of_find?_eq_some h
  · rw [if_neg hq] at h
    cases h

theorem seen_length_le {cfg : AlertingConfig} {s : List (Option XNode)}
    (h : walkInv cfg s) : s.length ≤ (walkUniverse cfg).length :=
  (h.1.subperm (fun _ hx => h.2 _ hx)).length_le

theorem actionScan_spec {α : Type} (cfg : AlertingConfig)
    (vis : Option XNode → XNode → Option α) :
    ∀ (refs : List XNode) (seen : List (Option XNode)) (node : XNode),
      walkInv cfg seen →
      walkInv cfg (actionScan cfg vis seen node refs).2 ∧
        List.IsSuffix seen (actionScan cfg vis seen node refs).2 := by
  intro refs
  induction refs with
  | nil => intro seen node hinv; exact ⟨hinv, List.suffix_refl _⟩
  | cons ref rest ih =>
      intro seen node hinv
      rw [actionScan]
      by_cases hel : getById cfg (getText ref) ∈ seen
      · rw [if_pos hel]
        exact ih seen node hinv
      · rw [if_neg hel]
        have hinv' : walkInv cfg (getById cfg (getText ref) :: seen) :=
          ⟨List.nodup_cons.mpr ⟨hel, hinv.1⟩,
           fun x hx => by
             rcases List.mem_cons.mp hx with rfl | hx'
             · exact getById_mem_universe cfg _
             · exact hinv.2 x hx'⟩
        cases visres : vis (getById cfg (getText ref)) node with
        | some r => exact ⟨hinv', List.suffix_cons _ _⟩
        | none =>
            have := ih (getById cfg (getText ref) :: seen) node hinv'
            exact ⟨this.1, (List.suffix_cons _ _).trans this.2⟩

theorem helperF_succ {α : Type} (cfg : AlertingConfig)
    (vis : Option XNode → XNode → Option α) (n : Nat)
    (seen : List (Option XNode)) (node : XNode) :
    helperF cfg vis (n + 1) seen node
      = match actionScan cfg vis seen node (elemsByTag "action-list" node) with
        | (some r, seen1) => some (.ok (some r), seen1)
        | (none, seen1) =>
            opScanGo cfg vis (helperF cfg vis n) seen1 node
              (elemsByTag "operation-list" node) := rfl

theorem opScanGo_total {α : Type} (cfg : AlertingConfig)
    (vis : Option XNode → XNode → Option α) (fuel : Nat)
    (IH : ∀ (seen : List (Option XNode)) (node : XNode), walkInv cfg seen →
      (walkUniverse cfg).length + 1 - seen.length ≤ fuel →
      ∃ out s₂, helperF cfg vis fuel seen node = some (out, s₂) ∧
        walkInv cfg s₂ ∧ List.IsSuffix seen s₂ ∧
        (resolvesOps cfg → node ∈ topElems cfg.root → ∃ r, out = .ok r)) :
    ∀ (refs : List XNode) (seen : List (Option XNode)) (node : XNode),
      walkInv cfg seen →
      (walkUniverse cfg).length + 1 - seen.length ≤ fuel + 1 →
      ∃ out s₂,
        opScanGo cfg vis (helperF cfg vis fuel) seen node refs = some (out, s₂) ∧
        walkInv cfg s₂ ∧ List.IsSuffix seen s₂ ∧
        ((∀ r ∈ refs, getById cfg (getText r) ≠ none) → resolvesOps cfg →
          ∃ r, out = .ok r) := by
  intro refs
  induction refs with
  | nil =>
      intro seen node hinv _
      exact ⟨.ok none, seen, rfl, hinv, List.suffix_refl _, fun _ _ => ⟨none, rfl⟩⟩
  | cons ref rest ih =>
      intro seen node hinv hb
      simp only [opScanGo]
      generalize hel_def : getById cfg (getText ref) = el
      have helmem : el ∈ walkUniverse cfg :=
        hel_def ▸ getById_mem_universe cfg (getText ref)
      by_cases hel : el ∈ seen
      · rw [if_pos hel]
        obtain ⟨out, s₂, heq, hi, hs, hc⟩ := ih seen node hinv hb
        exact ⟨out, s₂, heq, hi, hs,
          fun hr ho => hc (fun r hrr => hr r (List.mem_cons_of_mem _ hrr)) ho⟩
      · rw [if_neg hel]
        have hinv1 : walkInv cfg (el :: seen) :=
          ⟨List.nodup_cons.mpr ⟨hel, hinv.1⟩,
           fun x hx => by
             rcases List.mem_cons.mp hx with rfl | hx'
             · exact helmem
             · exact hinv.2 x hx'⟩
        have hlen1 : seen.length + 1 ≤ (walkUniverse cfg).length := by
          have := seen_length_le hinv1
          simpa using this
        cases hv : vis el node with
        | some r =>
            exact ⟨.ok (some r), el :: seen, rfl, hinv1, List.suffix_cons _ _,
              fun _ _ => ⟨some r, rfl⟩⟩
        | none =>
            cases el with
            | none =>
                refine ⟨.error "AttributeError", none :: seen, rfl, hinv1,
                  List.suffix_cons _ _, ?_⟩
                intro hr _
                exact absurd hel_def (hr ref (List.mem_cons_self _ _))
            | some elN =>
                have hbound : (walkUniverse cfg).length + 1
                    - (some elN :: seen).length ≤ fuel := by
                  simp only [List.length_cons]
                  omega
                obtain ⟨out₂, s₂, heq₂, hi₂, hs₂, hc₂⟩ :=
                  IH (some elN :: seen) elN hinv1 hbound
                dsimp only
                rw [heq₂]
                cases out₂ with
                | error e =>
                    refine ⟨.error e, s₂, rfl, hi₂,
                      (List.suffix_cons _ _).trans hs₂, ?_⟩
                    intro _ hops
                    obtain ⟨r, hrr⟩ := hc₂ hops (getById_some_mem hel_def)
                    exact Except.noConfusion hrr
                | ok oR =>
                    cases oR with
                    | some r =>
                        exact ⟨.ok (some r), s₂, rfl, hi₂,
                          (List.suffix_cons _ _).trans hs₂, fun _ _ => ⟨some r, rfl⟩⟩
                    | none =>
                        have hlen₂ : seen.length + 1 ≤ s₂.length := by
                          have := hs₂.length_le
                          simpa using this
                        have hb₂ : (walkUniverse cfg).length + 1 - s₂.length
                            ≤ fuel + 1 := by omega
                        obtain ⟨out₃, s₃, heq₃, hi₃, hs₃, hc₃⟩ := ih s₂ node hi₂ hb₂
                        refine ⟨out₃, s₃, heq₃, hi₃,
                          ((List.suffix_cons _ _).trans hs₂).trans hs₃, ?_⟩
                        intro hr hops
                        exact hc₃ (fun r hrr => hr r (List.mem_cons_of_mem _ hrr)) hops

theorem helperF_total {α : Type} (cfg : AlertingConfig)
    (vis : Option XNode → XNode → Option α) :
    ∀ (fuel : Nat) (seen : List (Option XNode)) (node : XNode), walkInv cfg seen →
      (walkUniverse cfg).length + 1 - seen.length ≤ fuel →
      ∃ out s₂, helperF cfg vis fuel seen node = some (out, s₂) ∧
        walkInv cfg s₂ ∧ List.IsSuffix seen s₂ ∧
        (resolvesOps cfg → node ∈ topElems cfg.root → ∃ r, out = .ok r) := by
  intro fuel
  induction fuel with
  | zero =>
      intro seen node hinv hb
      have := seen_length_le hinv
      exact absurd hb (by omega)
  | succ n ihf =>
      intro seen node hinv hb
      have hact := actionScan_spec cfg vis (elemsByTag "action-list" node) seen node hinv
      rw [helperF_succ]
      cases hacteq : actionScan cfg vis seen node (elemsByTag "action-list" node) with
      | mk r1 s1 =>
          rw [hacteq] at hact
          dsimp only at hact
          cases r1 with
          | some r =>
              exact ⟨.ok (some r), s1, rfl, hact.1, hact.2, fun _ _ => ⟨some r, rfl⟩⟩
          | none =>
              have hb1 : (walkUniverse cfg).length + 1 - s1.length ≤ n + 1 := by
                have := hact.2.length_le
                omega
              obtain ⟨out, s₂, heq, hi, hs, hc⟩ := opScanGo_total cfg vis n ihf
                (elemsByTag "operation-list" node) s1 node hact.1 hb1
              refine ⟨out, s₂, heq, hi, hact.2.trans hs, ?_⟩
              intro hops hmem
              exact hc (fun r hrr => hops node hmem r hrr) hops

/-- C7: for every configuration, root node and visitor — cyclic
reference graphs included — the walk completes within the `walkFuel`
bound (the Visited Set bounds the recursion depth by the number of
top-level nodes), and the visitor runs at most once per distinct
resolved node: the final seen list, which records the visitor's call
arguments newest first, has no duplicates, so however many paths reach
a node it is visited exactly once. -/
theorem walkTerminatesVisitsOnce {α : Type} (cfg : AlertingConfig) (d : XNode)
    (vis : Option XNode → XNode → Option α) :
    ∃ out seen, walkDefF (walkFuel cfg) cfg d vis = some (out, seen) ∧ seen.Nodup := by
  have hbound : (walkUniverse cfg).length + 1 - ([] : List (Option XNode)).length
      ≤ walkFuel cfg + 1 := by
    simp only [walkUniverse, List.length_cons, List.length_map, walkFuel,
      List.length_nil]
    omega
  cases d with
  | text s => exact ⟨.error "AttributeError", [], rfl, List.nodup_nil⟩
  | elem t attrs cs =>
      by_cases ht : t = "definition-list"
      · have hwalk : walkDefF (walkFuel cfg) cfg (.elem t attrs cs) vis
            = opScanGo cfg vis (helperF cfg vis (walkFuel cfg)) [] (.elem t attrs cs)
                (elemsByTag "entry-point-list" (.elem t attrs cs)) := by
          simp [walkDefF, ht]
        obtain ⟨out, s₂, heq, hi, _, _⟩ := opScanGo_total cfg vis (walkFuel cfg)
          (helperF_total cfg vis (walkFuel cfg))
          (elemsByTag "entry-point-list" (.elem t attrs cs)) [] (.elem t attrs cs)
          ⟨List.nodup_nil, by intro x hx; cases hx⟩ hbound
        exact ⟨out, s₂, hwalk.trans heq, hi.1⟩
      · exact ⟨.error "AssertionError", [], by simp [walkDefF, ht], List.nodup_nil⟩

/-- The document with one definition whose single entry-point reference
is dangling. -/
def dangDef : XNode :=
  .elem "definition-list" [("name", "dang")]
    [.elem "entry-point-list" [] [.text "ghost"]]

def dangCfg : AlertingConfig := mkConfig (.elem "AlertingConfig" [] [dangDef])

/-- C1 counterexample: a dangling entry-point reference is neither
skipped nor silent.  The reference resolves to `None`; the walk calls
the visitor once with that `None` (the seen list records the call) and
then, because the collecting visitor returned `None`, descends into the
missing node and dies with `AttributeError`.  This refutes "never
raises" and "the visitor is not called for it". -/
theorem walkDanglingReferenceRaises :
    getById dangCfg "ghost" = none ∧
    walkDefF (walkFuel dangCfg) dangCfg dangDef collectVis
      = some (.error "AttributeError", [none]) :=
  ⟨by decide, by decide⟩

/-- C1 amended: `walk` can only raise by descending into a dangling
entry-point or operation reference.  If every entry-point reference of
the definition and every operation reference of a top-level node
resolve, the walk completes without error for every visitor — dangling
ACTION references are tolerated: the action loop never descends, so
such a reference costs at most one visitor call with the unresolved
`None` value and traversal continues with the remaining references. -/
theorem walkNoErrorWhenEntryOpResolve {α : Type} (cfg : AlertingConfig)
    (attrs : List (String × String)) (cs : List XNode)
    (vis : Option XNode → XNode → Option α)
    (hentry : ∀ r ∈ elemsByTag "entry-point-list" (XNode.elem "definition-list" attrs cs),
      getById cfg (getText r) ≠ none)
    (hops : resolvesOps cfg) :
    ∃ res seen, walkDefF (walkFuel cfg) cfg (.elem "definition-list" attrs cs) vis
      = some (.ok res, seen) := by
  have hbound : (walkUniverse cfg).length + 1 - ([] : List (Option XNode)).length
      ≤ walkFuel cfg + 1 := by
    simp only [walkUniverse, List.length_cons, List.length_map, walkFuel,
      List.length_nil]
    omega
  have hwalk : walkDefF (walkFuel cfg) cfg (.elem "definition-list" attrs cs) vis
      = opScanGo cfg vis (helperF cfg vis (walkFuel cfg)) []
          (.elem "definition-list" attrs cs)
          (elemsByTag "entry-point-list" (.elem "definition-list" attrs cs)) := by
    simp [walkDefF]
  obtain ⟨out, s₂, heq, _, _, hc⟩ := opScanGo_total cfg vis (walkFuel cfg)
    (helperF_total cfg vis (walkFuel cfg))
    (elemsByTag "entry-point-list" (.elem "definition-list" attrs cs)) []
    (.elem "definition-list" attrs cs)
    ⟨List.nodup_nil, by intro x hx; cases hx⟩ hbound
  obtain ⟨r, hr⟩ := hc hentry hops
  refine ⟨r, s₂, ?_⟩
  rw [hwalk, heq, hr]

/-- Witness for C1 amended at a concrete input: the post-`createNode`
scenario document contains a dangling `Ac3` action reference, yet the
walk completes without error. -/
theorem walkNoErrorWhenEntryOpResolveWitness :
    (∀ r ∈ elemsByTag "entry-point-list"
        (XNode.elem "definition-list" [("name", "D"), ("enabled", "true")]
          [.elem "entry-point-list" [] [.text "E1"]]),
      getById scenCfg3 (getText r) ≠ none) ∧
    resolvesOps scenCfg3 ∧
    ∃ res seen, walkDefF (walkFuel scenCfg3) scenCfg3
        (.elem "definition-list" [("name", "D"), ("enabled", "true")]
          [.elem "entry-point-list" [] [.text "E1"]]) collectVis
      = some (.ok res, seen) :=
  ⟨by decide, by decide,
   walkNoErrorWhenEntryOpResolve scenCfg3 [("name", "D"), ("enabled", "true")]
     [.elem "entry-point-list" [] [.text "E1"]] collectVis (by decide) (by decide)⟩

/-!
Pruning idempotence.  First the counterexample: when a definition's
entry-point reference names a node of a different category, the first
pass can remove that node as an unused operation while the recorded
live-entry identifier still names it, and the second pass then dies
with `KeyError` while resolving the live entry points.
-/

def c8Def : XNode :=
  .elem "definition-list" [("name", "dd")]
    [.elem "entry-point-list" [] [.text "X"]]

def c8X : XNode := .elem "operation-list" [("id", "X")] []

def c8Root : XNode := .elem "AlertingConfig" [] [c8Def, c8X]

def c8Root1 : XNode := .elem "AlertingConfig" [] [c8Def]

/-- C8 counterexample: the first pruner pass succeeds and removes one
node, but a second pass over the pruned document (with the snapshot
rebuilt, as the caller's protocol requires) fails with `KeyError`
instead of removing zero nodes. -/
theorem pruneSecondRunFails :
    pruneRunF 1 c8Root = some (.ok (c8Root1, 1)) ∧
    pruneRunF 1 c8Root1 = some (.error "KeyError") :=
  ⟨by decide, by decide⟩

/-!
Support lemmas for the amended idempotence statement: properties of the
identifier snapshot (`idxPairs`), of `removeChild` sequences, and
stability of the live-set computation under an index restricted to the
surviving identifiers.
-/

theorem mem_setU {x : String} {a b : List String} :
    x ∈ setU a b ↔ x ∈ a ∨ x ∈ b := by
  simp [setU]

/-- The identifier snapshot has no duplicate identifiers.  (When it
does, `index[id]` silently shadows a node and removal can misfire, so
the amended claim assumes identifier uniqueness.) -/
def keysNodup (root : XNode) : Prop :=
  ((idxPairs (topElems root)).map Prod.fst).Nodup

instance (root : XNode) : Decidable (keysNodup root) := by
  unfold keysNodup
  infer_instance

theorem idxPairs_cons (n : XNode) (rest : List XNode) :
    idxPairs (n :: rest) =
      if getAttribute n "id" = "" then idxPairs rest
      else (getAttribute n "id", n) :: idxPairs rest := by
  rw [idxPairs, List.filterMap_cons]
  by_cases h : getAttribute n "id" = ""
  · simp [h, idxPairs]
  · simp [h, idxPairs]

theorem idxPairs_key_val {q : String} {n : XNode} :
    ∀ {T : List XNode}, (q, n) ∈ idxPairs T →
      n ∈ T ∧ getAttribute n "id" = q ∧ q ≠ "" := by
  intro T
  induction T with
  | nil => intro h; simp [idxPairs] at h
  | cons m rest ih =>
      intro h
      rw [idxPairs_cons] at h
      by_cases hm : getAttribute m "id" = ""
      · rw [if_pos hm] at h
        obtain ⟨h1, h2, h3⟩ := ih h
        exact ⟨List.mem_cons_of_mem _ h1, h2, h3⟩
      · rw [if_neg hm] at h
        rcases List.mem_cons.mp h with h1 | h2
        · injection h1 with hk hv
          subst hv
          exact ⟨List.mem_cons_self _ _, hk.symm, by rw [hk]; exact hm⟩
        · obtain ⟨h1, h2, h3⟩ := ih h2
          exact ⟨List.mem_cons_of_mem _ h1, h2, h3⟩

theorem mem_idxPairs {q : String} {n : XNode} :
    ∀ {T : List XNode}, n ∈ T → getAttribute n "id" = q → q ≠ "" →
      (q, n) ∈ idxPairs T := by
  intro T
  induction T with
  | nil => intro h; simp at h
  | cons m rest ih =>
      intro hmem hid hq
      rw [idxPairs_cons]
      rcases List.mem_cons.mp hmem with rfl | h2
      · rw [if_neg (by rw [hid]; exact hq), ← hid]
        exact List.mem_cons_self _ _
      · by_cases hm : getAttribute m "id" = ""
        · rw [if_pos hm]
          exact ih h2 hid hq
        · rw [if_neg hm]
          exact List.mem_cons_of_mem _ (ih h2 hid hq)

theorem tocGet_idxPairs {q : String} {n : XNode} {T : List XNode}
    (h : tocGet (idxPairs T) q = some n) :
    n ∈ T ∧ getAttribute n "id" = q ∧ q ≠ "" :=
  idxPairs_key_val (tocGet_mem h)

theorem keys_val_unique {q : String} {n m : XNode} :
    ∀ {I : List (String × XNode)}, (I.map Prod.fst).Nodup →
      (q, n) ∈ I → (q, m) ∈ I → n = m := by
  intro I
  induction I with
  | nil => intro _ h; simp at h
  | cons p rest ih =>
      intro hnd hn hm
      rw [List.map_cons, List.nodup_cons] at hnd
      rcases List.mem_cons.mp hn with h1 | h1 <;>
        rcases List.mem_cons.mp hm with h2 | h2
      · rw [← h2] at h1
        exact congrArg Prod.snd h1
      · exfalso
        apply hnd.1
        have hmm : (q, m).1 ∈ rest.map Prod.fst := List.mem_map_of_mem Prod.fst h2
        have hq : p.1 = q := (congrArg Prod.fst h1).symm
        rw [hq]
        exact hmm
      · exfalso
        apply hnd.1
        have hmm : (q, n).1 ∈ rest.map Prod.fst := List.mem_map_of_mem Prod.fst h1
        have hq : p.1 = q := (congrArg Prod.fst h2).symm
        rw [hq]
        exact hmm
      · exact ih hnd.2 h1 h2

theorem removeChildX_split {n : XNode} :
    ∀ {l l' : List XNode}, removeChildX n l = .ok l' →
      ∃ l₁ l₂, l = l₁ ++ n :: l₂ ∧ n ∉ l₁ ∧ l' = l₁ ++ l₂ := by
  intro l
  induction l with
  | nil => intro l' h; simp [removeChildX] at h
  | cons c rest ih =>
      intro l' h
      rw [removeChildX] at h
      by_cases hc : c = n
      · rw [if_pos hc] at h
        cases h
        exact ⟨[], rest, by simp [hc], by simp, rfl⟩
      · rw [if_neg hc] at h
        cases hrec : removeChildX n rest with
        | error e => rw [hrec] at h; cases h
        | ok cs' =>
            rw [hrec] at h
            simp only [Except.map] at h
            cases h
            rcases ih hrec with ⟨l₁, l₂, he, hn, hcs⟩
            refine ⟨c :: l₁, l₂, by simp [he], ?_, by simp [hcs]⟩
            intro hmem
            rcases List.mem_cons.mp hmem with h1 | h2
            · exact hc h1.symm
            · exact hn h2

theorem removeIds_ok_resolves {I : List (String × XNode)} :
    ∀ {qs : List String} {root root' : XNode} {k : Nat},
      removeIds I root qs = .ok (root', k) →
      ∀ q ∈ qs, ∃ n, tocGet I q = some n := by
  intro qs
  induction qs with
  | nil => intro root root' k _ q hq; simp at hq
  | cons q0 rest ih =>
      intro root root' k h q hq
      rw [removeIds] at h
      cases htoc : tocGet I q0 with
      | none => rw [htoc] at h; cases h
      | some n =>
          rw [htoc] at h
          dsimp only at h
          cases hrm : removeChildX n (childrenOf root) with
          | error e => rw [hrm] at h; cases h
          | ok cs =>
              rw [hrm] at h
              dsimp only at h
              cases hrec : removeIds I (setChildren root cs) rest with
              | error e => rw [hrec] at h; simp [Except.map] at h
              | ok p =>
                  rcases List.mem_cons.mp hq with rfl | hq'
                  · exact ⟨n, htoc⟩
                  · exact ih hrec q hq'

/-- Count of a node with the given identifier is bounded by the count
of that identifier among the snapshot keys. -/
theorem count_le_key_count {n : XNode} {q : String}
    (hid : getAttribute n "id" = q) (hq : q ≠ "") :
    ∀ (T : List XNode), T.count n ≤ (((idxPairs T).map Prod.fst).count q) := by
  intro T
  induction T with
  | nil => simp [idxPairs]
  | cons m rest ih =>
      rw [idxPairs_cons]
      by_cases hm : getAttribute m "id" = ""
      · rw [if_pos hm]
        have hmn : m ≠ n := by
          intro he
          rw [he, hid] at hm
          exact hq hm
        rw [List.count_cons]
        simp only [beq_iff_eq]
        rw [if_neg hmn]
        simpa using ih
      · rw [if_neg hm, List.map_cons, List.count_cons, List.count_cons]
        by_cases hmn : m = n
        · subst hmn
          simp only [beq_iff_eq, hid]
          omega
        · simp only [beq_iff_eq]
          rw [if_neg hmn]
          have : (if q = getAttribute m "id" then 1 else 0) ≥ 0 := by omega
          omega

theorem node_count_one {root : XNode} (hnd : keysNodup root) {q : String} {n : XNode}
    (h : tocGet (idxPairs (topElems root)) q = some n) :
    (topElems root).count n = 1 := by
  obtain ⟨hmem, hid, hq⟩ := tocGet_idxPairs h
  have h1 : 1 ≤ (topElems root).count n := List.count_pos_iff.mpr hmem
  have h2 := count_le_key_count hid hq (topElems root)
  have h3 : (((idxPairs (topElems root)).map Prod.fst).count q) ≤ 1 :=
    List.nodup_iff_count_le_one.mp hnd q
  omega

theorem node_id_unique {root : XNode} (hnd : keysNodup root) {q : String} {n m : XNode}
    (h : tocGet (idxPairs (topElems root)) q = some n)
    (hm : m ∈ topElems root) (hid : getAttribute m "id" = q) : m = n := by
  obtain ⟨_, _, hq⟩ := tocGet_idxPairs h
  exact keys_val_unique hnd (mem_idxPairs hm hid hq) (tocGet_mem h)

/-- Full characterisation of the `lint` removal loop under unique
identifiers: it removes exactly the top-level nodes carrying the listed
identifiers, counts them, and leaves every other node's multiplicity in
the child list untouched. -/
theorem removeIds_spec {I : List (String × XNode)} :
    ∀ (qs : List String) (root root' : XNode) (k : Nat),
      removeIds I root qs = .ok (root', k) →
      isElem root = true →
      qs.Nodup →
      (∀ q ∈ qs, ∃ n, tocGet I q = some n ∧ getAttribute n "id" = q ∧
        isElem n = true ∧ (childrenOf root).count n = 1 ∧
        (∀ m ∈ topElems root, getAttribute m "id" = q → m = n)) →
      isElem root' = true ∧ k = qs.length ∧
      topElems root' = (topElems root).filter (fun m => ¬ getAttribute m "id" ∈ qs) ∧
      (∀ m : XNode, getAttribute m "id" ∉ qs →
        (childrenOf root').count m = (childrenOf root).count m) := by
  intro qs
  induction qs with
  | nil =>
      intro root root' k h hre _ _
      rw [removeIds] at h
      cases h
      refine ⟨hre, rfl, ?_, fun m _ => rfl⟩
      rw [List.filter_eq_self.mpr (by intro a _; simp)]
  | cons q0 rest ih =>
      intro root root' k h hre hnd hq
      rw [removeIds] at h
      obtain ⟨n, htoc, hid, hne, hcount, huniq⟩ := hq q0 (List.mem_cons_self _ _)
      rw [htoc] at h
      dsimp only at h
      cases hrm : removeChildX n (childrenOf root) with
      | error e => rw [hrm] at h; cases h
      | ok cs =>
          rw [hrm] at h
          dsimp only at h
          cases hrec : removeIds I (setChildren root cs) rest with
          | error e => rw [hrec] at h; simp [Except.map] at h
          | ok p =>
              obtain ⟨r1, k1⟩ := p
              rw [hrec] at h
              simp only [Except.map] at h
              injection h with h2
              injection h2 with ha hb
              subst ha
              subst hb
              obtain ⟨l₁, l₂, hsplit, hnotin, hcs⟩ := removeChildX_split hrm
              subst hcs
              have hre1 : isElem (setChildren root (l₁ ++ l₂)) = true := by
                rw [isElem_setChildren]; exact hre
              have hch1 : childrenOf (setChildren root (l₁ ++ l₂)) = l₁ ++ l₂ :=
                childrenOf_setChildren hre _
              have hn_l₂ : n ∉ l₂ := by
                intro hmem
                rw [hsplit, List.count_append] at hcount
                have h1 : 1 ≤ l₂.count n := List.count_pos_iff.mpr hmem
                have h2 : 1 ≤ (n :: l₂).count n := by
                  rw [List.count_cons_self]; omega
                rw [List.count_cons_self] at hcount
                omega
              have htop : topElems root
                  = l₁.filter (fun c => isElem c)
                    ++ n :: l₂.filter (fun c => isElem c) := by
                rw [topElems, hsplit, List.filter_append, List.filter_cons, if_pos hne]
              have htop1 : topElems (setChildren root (l₁ ++ l₂))
                  = l₁.filter (fun c => isElem c) ++ l₂.filter (fun c => isElem c) := by
                rw [topElems, hch1, List.filter_append]
              have hkeep : ∀ m ∈ topElems root, m ≠ n →
                  ¬ getAttribute m "id" = q0 := by
                intro m hm hmn hmid
                exact hmn (huniq m hm hmid)
              have hq0rest : q0 ∉ rest := (List.nodup_cons.mp hnd).1
              have hq' : ∀ q ∈ rest, ∃ n', tocGet I q = some n' ∧
                  getAttribute n' "id" = q ∧ isElem n' = true ∧
                  (childrenOf (setChildren root (l₁ ++ l₂))).count n' = 1 ∧
                  (∀ m ∈ topElems (setChildren root (l₁ ++ l₂)),
                    getAttribute m "id" = q → m = n') := by
                intro q hqr
                obtain ⟨n', ht', hi', he', hc', hu'⟩ := hq q (List.mem_cons_of_mem _ hqr)
                have hq0q : q ≠ q0 := fun he => hq0rest (he ▸ hqr)
                have hnn' : n ≠ n' := by
                  intro he
                  rw [← he] at hi'
                  rw [hid] at hi'
                  exact hq0q hi'.symm
                refine ⟨n', ht', hi', he', ?_, ?_⟩
                · rw [hch1, List.count_append]
                  rw [hsplit, List.count_append, List.count_cons] at hc'
                  simp only [beq_iff_eq] at hc'
                  rw [if_neg hnn'] at hc'
                  omega
                · intro m hm hmid
                  refine hu' m ?_ hmid
                  rw [htop]
                  rw [htop1] at hm
                  rcases List.mem_append.mp hm with h1 | h2
                  · exact List.mem_append.mpr (Or.inl h1)
                  · exact List.mem_append.mpr (Or.inr (List.mem_cons_of_mem _ h2))
              obtain ⟨hre', hk', htops', hcnt'⟩ :=
                ih (setChildren root (l₁ ++ l₂)) r1 k1 hrec hre1
                  (List.nodup_cons.mp hnd).2 hq'
              have hstep : (topElems (setChildren root (l₁ ++ l₂)))
                  = (topElems root).filter (fun m => ¬ getAttribute m "id" = q0) := by
                rw [htop1, htop, List.filter_append, List.filter_cons]
                have hnq0 : (decide ¬ getAttribute n "id" = q0) = false := by
                  simp [hid]
                rw [hnq0]
                simp only [Bool.false_eq_true, if_false]
                congr 1
                · refine (List.filter_eq_self.mpr ?_).symm
                  intro m hm
                  have hm1 : m ∈ topElems root := by
                    rw [htop]; exact List.mem_append.mpr (Or.inl hm)
                  have hmn : m ≠ n := by
                    intro he
                    rw [he] at hm
                    exact hnotin (List.mem_of_mem_filter hm)
                  simpa using hkeep m hm1 hmn
                · refine (List.filter_eq_self.mpr ?_).symm
                  intro m hm
                  have hm1 : m ∈ topElems root := by
                    rw [htop]
                    exact List.mem_append.mpr (Or.inr (List.mem_cons_of_mem _ hm))
                  have hmn : m ≠ n := by
                    intro he
                    rw [he] at hm
                    exact hn_l₂ (List.mem_of_mem_filter hm)
                  simpa using hkeep m hm1 hmn
              refine ⟨hre', by rw [hk']; rfl, ?_, ?_⟩
              · rw [htops', hstep, List.filter_filter]
                refine List.filter_congr ?_
                intro m hm
                by_cases h1 : getAttribute m "id" = q0 <;>
                  by_cases h2 : getAttribute m "id" ∈ rest <;>
                  simp [h1, h2]
              · intro m hm
                have hm0 : getAttribute m "id" ≠ q0 := fun he =>
                  hm (he ▸ List.mem_cons_self _ _)
                have hmr : getAttribute m "id" ∉ rest := fun he =>
                  hm (List.mem_cons_of_mem _ he)
                have hmn : m ≠ n := by
                  intro he
                  rw [he, hid] at hm0
                  exact hm0 rfl
                rw [hcnt' m hmr, hch1, hsplit, List.count_append, List.count_append,
                  List.count_cons]
                simp only [beq_iff_eq]
                rw [if_neg (fun he => hmn he.symm)]
                omega

theorem idxPairs_filter_key (P : String → Bool) :
    ∀ (T : List XNode),
      idxPairs (T.filter (fun n => P (getAttribute n "id")))
        = (idxPairs T).filter (fun p => P p.1) := by
  intro T
  induction T with
  | nil => rfl
  | cons m rest ih =>
      rw [List.filter_cons, idxPairs_cons]
      by_cases hP : P (getAttribute m "id")
      · rw [if_pos hP]
        by_cases hm : getAttribute m "id" = ""
        · rw [idxPairs_cons, if_pos hm, if_pos hm, ih]
        · rw [idxPairs_cons, if_neg hm, if_neg hm, List.filter_cons, if_pos hP, ih]
      · rw [if_neg (by simpa using hP)]
        by_cases hm : getAttribute m "id" = ""
        · rw [if_pos hm, ih]
        · rw [if_neg hm, List.filter_cons]
          rw [if_neg (by simpa using hP), ih]

theorem lookup_filter_key {β : Type} (P : String → Bool) {q : String} (hq : P q = true) :
    ∀ (l : List (String × β)), (l.filter (fun p => P p.1)).lookup q = l.lookup q := by
  intro l
  induction l with
  | nil => rfl
  | cons p rest ih =>
      rw [List.filter_cons]
      by_cases hpk : P p.1
      · rw [if_pos (by simpa using hpk), List.lookup, List.lookup]
        by_cases hqp : q = p.1
        · simp [hqp]
        · simp only [beq_false_of_ne hqp]
          exact ih
      · rw [if_neg (by simpa using hpk), List.lookup]
        have hqp : ¬ q = p.1 := by
          intro he
          rw [← he] at hpk
          exact hpk hq
        simp only [beq_false_of_ne hqp]
        exact ih

theorem tocGet_filter_key (P : String → Bool) {q : String} (hq : P q = true)
    (I : List (String × XNode)) :
    tocGet (I.filter (fun p => P p.1)) q = tocGet I q := by
  rw [tocGet, tocGet, ← List.filter_reverse]
  exact lookup_filter_key P hq I.reverse

theorem resolveAll_congr {I₂ I : List (String × XNode)} :
    ∀ (qs : List String), (∀ q ∈ qs, tocGet I₂ q = tocGet I q) →
      resolveAll I₂ qs = resolveAll I qs := by
  intro qs
  induction qs with
  | nil => intro _; rfl
  | cons q rest ih =>
      intro hagree
      rw [resolveAll, resolveAll, hagree q (List.mem_cons_self _ _),
        ih (fun r hr => hagree r (List.mem_cons_of_mem _ hr))]

theorem resolveAll_mem {T : List XNode} :
    ∀ {qs : List String} {res : List XNode},
      resolveAll (idxPairs T) qs = .ok res → ∀ n ∈ res, n ∈ T := by
  intro qs
  induction qs with
  | nil =>
      intro res h n hn
      rw [resolveAll] at h
      cases h
      simp at hn
  | cons q rest ih =>
      intro res h n hn
      rw [resolveAll] at h
      cases htoc : tocGet (idxPairs T) q with
      | none => rw [htoc] at h; cases h
      | some n0 =>
          rw [htoc] at h
          cases hrec : resolveAll (idxPairs T) rest with
          | error e => rw [hrec] at h; cases h
          | ok res' =>
              rw [hrec] at h
              simp only [Except.map] at h
              cases h
              rcases List.mem_cons.mp hn with rfl | hn'
              · exact (tocGet_idxPairs htoc).1
              · exact ih hrec n hn'

theorem helperOrphGo_cons_ok {tag : String}
    {sub : List String → Option (Except String (List String))} {node : XNode}
    {rest : List XNode} {m : List String}
    (h : helperOrphGo tag sub (node :: rest) = some (.ok m)) :
    ∃ msub mrest,
      (if ((refTexts tag node).dedup).isEmpty then some (Except.ok [])
        else sub ((refTexts tag node).dedup)) = some (.ok msub) ∧
      helperOrphGo tag sub rest = some (.ok mrest) ∧
      m = setU (setU ((refTexts tag node).dedup) msub) mrest := by
  rw [helperOrphGo] at h
  cases hs : (if ((refTexts tag node).dedup).isEmpty then some (Except.ok [])
      else sub ((refTexts tag node).dedup)) with
  | none => rw [hs] at h; cases h
  | some s =>
      rw [hs] at h
      cases s with
      | error e => cases h
      | ok msub =>
          cases hrest : helperOrphGo tag sub rest with
          | none => rw [hrest] at h; cases h
          | some s' =>
              rw [hrest] at h
              cases s' with
              | error e => cases h
              | ok mrest =>
                  injection h with h2
                  injection h2 with h3
                  exact ⟨msub, mrest, rfl, rfl, h3.symm⟩

/-- Rebuilding the orphan-checker's recursion body over a second index
that agrees on every identifier the run marks reproduces the run
exactly. -/
theorem helperOrphGo_stable {tag : String}
    {sub₁ sub₂ : List String → Option (Except String (List String))}
    (agree : String → Prop)
    (hsub : ∀ m2 msub, sub₁ m2 = some (.ok msub) → (∀ q ∈ m2, agree q) →
      (∀ q ∈ msub, agree q) → sub₂ m2 = some (.ok msub)) :
    ∀ (nodes : List XNode) (m : List String),
      helperOrphGo tag sub₁ nodes = some (.ok m) → (∀ q ∈ m, agree q) →
      helperOrphGo tag sub₂ nodes = some (.ok m) := by
  intro nodes
  induction nodes with
  | nil =>
      intro m h _
      rw [helperOrphGo] at h
      injection h with h2
      injection h2 with h3
      rw [helperOrphGo, ← h3]
  | cons node rest ih =>
      intro m h hagree
      obtain ⟨msub, mrest, hstep, hrest, hm⟩ := helperOrphGo_cons_ok h
      have hmarked : ∀ q ∈ (refTexts tag node).dedup, agree q := by
        intro q hq
        refine hagree q ?_
        rw [hm]
        exact mem_setU.mpr (Or.inl (mem_setU.mpr (Or.inl hq)))
      have hmsub : ∀ q ∈ msub, agree q := by
        intro q hq
        refine hagree q ?_
        rw [hm]
        exact mem_setU.mpr (Or.inl (mem_setU.mpr (Or.inr hq)))
      have hmrest : ∀ q ∈ mrest, agree q := by
        intro q hq
        refine hagree q ?_
        rw [hm]
        exact mem_setU.mpr (Or.inr hq)
      have hstep₂ : (if ((refTexts tag node).dedup).isEmpty then some (Except.ok [])
          else sub₂ ((refTexts tag node).dedup)) = some (.ok msub) := by
        by_cases hemp : ((refTexts tag node).dedup).isEmpty
        · rw [if_pos hemp]
          rw [if_pos hemp] at hstep
          exact hstep
        · rw [if_neg hemp]
          rw [if_neg hemp] at hstep
          exact hsub _ _ hstep hmarked hmsub
      rw [helperOrphGo, hstep₂, ih mrest hrest hmrest, hm]

theorem helperOrphF_stable {I I₂ : List (String × XNode)} {tag : String} :
    ∀ (fuel : Nat) (nodes : List XNode) (m : List String),
      helperOrphF I tag fuel nodes = some (.ok m) →
      (∀ q ∈ m, tocGet I₂ q = tocGet I q) →
      helperOrphF I₂ tag fuel nodes = some (.ok m) := by
  intro fuel
  induction fuel with
  | zero =>
      intro nodes m h hagree
      exact helperOrphGo_stable (fun q => tocGet I₂ q = tocGet I q)
        (fun m2 msub hfalse _ _ => by cases hfalse) nodes m h hagree
  | succ f ihf =>
      intro nodes m h hagree
      refine helperOrphGo_stable (fun q => tocGet I₂ q = tocGet I q)
        ?_ nodes m h hagree
      intro m2 msub hstep hm2 hmsub
      cases hres : resolveAll I m2 with
      | error e => rw [hres] at hstep; cases hstep
      | ok res =>
          rw [hres] at hstep
          have hres₂ : resolveAll I₂ m2 = .ok res := by
            rw [resolveAll_congr m2 hm2, hres]
          rw [hres₂]
          exact ihf res msub hstep hmsub

/-- Every identifier the recursive helper marks is the text of some
reference of that tag inside a top-level node. -/
theorem helperOrphF_src {T : List XNode} {tag : String} :
    ∀ (fuel : Nat) (nodes : List XNode) (m : List String),
      helperOrphF (idxPairs T) tag fuel nodes = some (.ok m) →
      (∀ n ∈ nodes, n ∈ T) →
      ∀ q ∈ m, ∃ n, n ∈ T ∧ q ∈ refTexts tag n := by
  have go : ∀ (sub : List String → Option (Except String (List String))),
      (∀ m2 msub, sub m2 = some (.ok msub) →
        ∀ q ∈ msub, ∃ n, n ∈ T ∧ q ∈ refTexts tag n) →
      ∀ (nodes : List XNode) (m : List String),
        helperOrphGo tag sub nodes = some (.ok m) →
        (∀ n ∈ nodes, n ∈ T) →
        ∀ q ∈ m, ∃ n, n ∈ T ∧ q ∈ refTexts tag n := by
    intro sub hsub nodes
    induction nodes with
    | nil =>
        intro m h _ q hq
        rw [helperOrphGo] at h
        injection h with h2
        injection h2 with h3
        rw [← h3] at hq
        simp at hq
    | cons node rest ih =>
        intro m h hnodes q hq
        obtain ⟨msub, mrest, hstep, hrest, hm⟩ := helperOrphGo_cons_ok h
        rw [hm] at hq
        rcases mem_setU.mp hq with hq1 | hq2
        · rcases mem_setU.mp hq1 with hq3 | hq4
          · exact ⟨node, hnodes node (List.mem_cons_self _ _),
              (List.mem_dedup.mp hq3)⟩
          · by_cases hemp : ((refTexts tag node).dedup).isEmpty
            · rw [if_pos hemp] at hstep
              injection hstep with h2
              injection h2 with h3
              rw [← h3] at hq4
              simp at hq4
            · rw [if_neg hemp] at hstep
              exact hsub _ _ hstep q hq4
        · exact ih mrest hrest (fun n hn => hnodes n (List.mem_cons_of_mem _ hn)) q hq2
  intro fuel
  induction fuel with
  | zero =>
      intro nodes m h hnodes
      exact go _ (fun m2 msub hfalse => by cases hfalse) nodes m h hnodes
  | succ f ihf =>
      intro nodes m h hnodes
      refine go _ ?_ nodes m h hnodes
      intro m2 msub hstep q hq
      cases hres : resolveAll (idxPairs T) m2 with
      | error e => rw [hres] at hstep; cases hstep
      | ok res =>
          rw [hres] at hstep
          exact ihf res msub hstep (resolveAll_mem hres) q hq

theorem resolveAll_ok_resolves {I : List (String × XNode)} :
    ∀ {qs : List String} {res : List XNode}, resolveAll I qs = .ok res →
      ∀ q ∈ qs, ∃ n, tocGet I q = some n := by
  intro qs
  induction qs with
  | nil => intro res _ q hq; simp at hq
  | cons q0 rest ih =>
      intro res h q hq
      rw [resolveAll] at h
      cases htoc : tocGet I q0 with
      | none => rw [htoc] at h; cases h
      | some n =>
          rw [htoc] at h
          rcases List.mem_cons.mp hq with rfl | h2
          · exact ⟨n, htoc⟩
          · cases hrest : resolveAll I rest with
            | error e => rw [hrest] at h; cases h
            | ok res2 => exact ih hrest q h2

theorem mem_catIds {tops : List XNode} {tag q : String} :
    q ∈ catIds tops tag ↔ ∃ m, m ∈ tops ∧ tagName m = tag ∧ getAttribute m "id" = q := by
  rw [catIds, List.mem_dedup]
  constructor
  · intro h
    obtain ⟨m, hm, hid⟩ := List.mem_map.mp h
    obtain ⟨hmem, htag⟩ := List.mem_filter.mp hm
    exact ⟨m, hmem, by simpa using htag, hid⟩
  · rintro ⟨m, hmem, htag, hid⟩
    exact List.mem_map.mpr ⟨m, List.mem_filter.mpr ⟨hmem, by simpa using htag⟩, hid⟩

theorem catIds_nodup (tops : List XNode) (tag : String) : (catIds tops tag).Nodup :=
  List.nodup_dedup _

/-- Under unique identifiers, the node an identifier of one category
resolves to is the category's node itself, so it carries that tag. -/
theorem removed_id_tag {root : XNode} (HND : keysNodup root) {q tag : String} {n : XNode}
    (h : tocGet (idxPairs (topElems root)) q = some n)
    (hq : q ∈ catIds (topElems root) tag) : tagName n = tag := by
  obtain ⟨m, hmem, htag, hid⟩ := mem_catIds.mp hq
  rw [← node_id_unique HND h hmem hid]
  exact htag

theorem topElems_isElem {root m : XNode} (h : m ∈ topElems root) : isElem m = true := by
  simpa using (List.mem_filter.mp h).2

theorem count_children_of_elem {root n : XNode} (hn : isElem n = true) :
    (childrenOf root).count n = (topElems root).count n := by
  rw [topElems, List.count_filter (by simpa using hn)]

/-- The identifiers a full prune run keeps: not removed in any of the
three category passes. -/
def keepId (E O A : List String) (s : String) : Bool :=
  (decide (¬ s ∈ E)) && ((decide (¬ s ∈ O)) && (decide (¬ s ∈ A)))

theorem keepId_eq_true {E O A : List String} {q : String}
    (hE : ¬ q ∈ E) (hO : ¬ q ∈ O) (hA : ¬ q ∈ A) : keepId E O A q = true := by
  simp [keepId, hE, hO, hA]

theorem not_mem_of_keepId {E O A : List String} {q : String}
    (h : keepId E O A q = true) : ¬ q ∈ E ∧ ¬ q ∈ O ∧ ¬ q ∈ A := by
  simpa [keepId] using h

/-- Assembling a prune run from its six stage results. -/
theorem pruneRunF_ok_intro {fuel : Nat} {root root1 root2 root3 : XNode}
    {k1 k2 k3 : Nat} {entryNodes opNodes : List XNode} {liveOps : List String}
    (h1 : removeIds (idxPairs (topElems root)) root
      ((catIds (topElems root) "entry-point-list").filter
        (fun q => ¬ q ∈ marksList "entry-point-list"
          ((topElems root).filter (fun n => tagName n = "definition-list"))))
      = .ok (root1, k1))
    (h2 : resolveAll (idxPairs (topElems root))
      (marksList "entry-point-list"
        ((topElems root).filter (fun n => tagName n = "definition-list")))
      = .ok entryNodes)
    (h3 : helperOrphF (idxPairs (topElems root)) "operation-list" fuel entryNodes
      = some (.ok liveOps))
    (h4 : removeIds (idxPairs (topElems root)) root1
      ((catIds (topElems root) "operation-list").filter (fun q => ¬ q ∈ liveOps))
      = .ok (root2, k2))
    (h5 : resolveAll (idxPairs (topElems root)) liveOps = .ok opNodes)
    (h6 : removeIds (idxPairs (topElems root)) root2
      ((catIds (topElems root) "action-list").filter (fun q => ¬ q ∈
        setU (marksList "action-list" entryNodes) (marksList "action-list" opNodes)))
      = .ok (root3, k3)) :
    pruneRunF fuel root = some (.ok (root3, k1 + k2 + k3)) := by
  simp only [pruneRunF, h1, h2, h3, h4, h5, h6]

/-- Decomposing a successful prune run into its six stage results. -/
theorem pruneRunF_ok_inv {fuel : Nat} {root root' : XNode} {k : Nat}
    (h : pruneRunF fuel root = some (.ok (root', k))) :
    ∃ root1 k1 entryNodes liveOps root2 k2 opNodes k3,
      removeIds (idxPairs (topElems root)) root
        ((catIds (topElems root) "entry-point-list").filter
          (fun q => ¬ q ∈ marksList "entry-point-list"
            ((topElems root).filter (fun n => tagName n = "definition-list"))))
        = .ok (root1, k1) ∧
      resolveAll (idxPairs (topElems root))
        (marksList "entry-point-list"
          ((topElems root).filter (fun n => tagName n = "definition-list")))
        = .ok entryNodes ∧
      helperOrphF (idxPairs (topElems root)) "operation-list" fuel entryNodes
        = some (.ok liveOps) ∧
      removeIds (idxPairs (topElems root)) root1
        ((catIds (topElems root) "operation-list").filter (fun q => ¬ q ∈ liveOps))
        = .ok (root2, k2) ∧
      resolveAll (idxPairs (topElems root)) liveOps = .ok opNodes ∧
      removeIds (idxPairs (topElems root)) root2
        ((catIds (topElems root) "action-list").filter (fun q => ¬ q ∈
          setU (marksList "action-list" entryNodes) (marksList "action-list" opNodes)))
        = .ok (root', k3) ∧
      k = k1 + k2 + k3 := by
  simp only [pruneRunF] at h
  cases h1 : removeIds (idxPairs (topElems root)) root
      ((catIds (topElems root) "entry-point-list").filter
        (fun q => ¬ q ∈ marksList "entry-point-list"
          ((topElems root).filter (fun n => tagName n = "definition-list")))) with
  | error e => rw [h1] at h; simp at h
  | ok p1 =>
      rw [h1] at h
      obtain ⟨root1, k1⟩ := p1
      dsimp only at h
      cases h2 : resolveAll (idxPairs (topElems root))
          (marksList "entry-point-list"
            ((topElems root).filter (fun n => tagName n = "definition-list"))) with
      | error e => rw [h2] at h; simp at h
      | ok entryNodes =>
          rw [h2] at h
          dsimp only at h
          cases h3 : helperOrphF (idxPairs (topElems root)) "operation-list" fuel entryNodes with
          | none => rw [h3] at h; simp at h
          | some r3 =>
              rw [h3] at h
              cases r3 with
              | error e => simp at h
              | ok liveOps =>
                  dsimp only at h
                  cases h4 : removeIds (idxPairs (topElems root)) root1
                      ((catIds (topElems root) "operation-list").filter
                        (fun q => ¬ q ∈ liveOps)) with
                  | error e => rw [h4] at h; simp at h
                  | ok p2 =>
                      rw [h4] at h
                      obtain ⟨root2, k2⟩ := p2
                      dsimp only at h
                      cases h5 : resolveAll (idxPairs (topElems root)) liveOps with
                      | error e => rw [h5] at h; simp at h
                      | ok opNodes =>
                          rw [h5] at h
                          dsimp only at h
                          cases h6 : removeIds (idxPairs (topElems root)) root2
                              ((catIds (topElems root) "action-list").filter (fun q => ¬ q ∈
                                setU (marksList "action-list" entryNodes)
                                  (marksList "action-list" opNodes))) with
                          | error e => rw [h6] at h; simp at h
                          | ok p3 =>
                              rw [h6] at h
                              obtain ⟨root3, k3⟩ := p3
                              dsimp only at h
                              injection h with h7
                              injection h7 with h8
                              injection h8 with h9 h10
                              exact ⟨root1, k1, entryNodes, liveOps, root2, k2, opNodes, k3,
                                rfl, rfl, h3, h4, h5, h9 ▸ h6, h10.symm⟩

/-- C8: Pruning is NOT idempotent in general (see the counterexample
`pruneSecondRunFails`): the second run rebuilds its snapshot from the
pruned document, and a live reference that resolved to a node of a
DIFFERENT category removed as unused in the first run now raises
`KeyError`.  Amended: when top-level identifiers are unique and every
entry-point reference of a definition and every operation reference
resolves to a node of the referenced category, a second run over the
pruned document succeeds, removes zero nodes, and leaves it unchanged. -/
theorem pruneSecondRunNoRemovals
    (fuel : Nat) (root root' : XNode) (k : Nat)
    (HElem : isElem root = true)
    (HND : keysNodup root)
    (HE : ∀ q ∈ marksList "entry-point-list"
        ((topElems root).filter (fun n => tagName n = "definition-list")),
      ((tocGet (idxPairs (topElems root)) q).all
        (fun n => tagName n == "entry-point-list")) = true)
    (HO : ∀ p ∈ topElems root, ∀ q ∈ refTexts "operation-list" p,
      ((tocGet (idxPairs (topElems root)) q).all
        (fun n => tagName n == "operation-list")) = true)
    (HRun : pruneRunF fuel root = some (.ok (root', k))) :
    pruneRunF fuel root' = some (.ok (root', 0)) := by
  obtain ⟨root1, k1, entryNodes, liveOps, root2, k2, opNodes, k3,
    hE, hResE, hOps, hO, hResO, hA, hk⟩ := pruneRunF_ok_inv HRun
  set liveEntry := marksList "entry-point-list"
    ((topElems root).filter (fun n => tagName n = "definition-list")) with hLE
  set E := (catIds (topElems root) "entry-point-list").filter
    (fun q => ¬ q ∈ liveEntry) with hEdef
  set O := (catIds (topElems root) "operation-list").filter
    (fun q => ¬ q ∈ liveOps) with hOdef
  set liveActs := setU (marksList "action-list" entryNodes)
    (marksList "action-list" opNodes) with hLA
  set A := (catIds (topElems root) "action-list").filter
    (fun q => ¬ q ∈ liveActs) with hAdef
  have hEres : ∀ q ∈ E, ∃ n, tocGet (idxPairs (topElems root)) q = some n :=
    removeIds_ok_resolves hE
  have hOres : ∀ q ∈ O, ∃ n, tocGet (idxPairs (topElems root)) q = some n :=
    removeIds_ok_resolves hO
  have hAres : ∀ q ∈ A, ∃ n, tocGet (idxPairs (topElems root)) q = some n :=
    removeIds_ok_resolves hA
  have hEtag : ∀ q ∈ E, ∀ n, tocGet (idxPairs (topElems root)) q = some n →
      tagName n = "entry-point-list" := by
    intro q hq n hn
    rw [hEdef] at hq
    exact removed_id_tag HND hn (List.mem_filter.mp hq).1
  have hOtag : ∀ q ∈ O, ∀ n, tocGet (idxPairs (topElems root)) q = some n →
      tagName n = "operation-list" := by
    intro q hq n hn
    rw [hOdef] at hq
    exact removed_id_tag HND hn (List.mem_filter.mp hq).1
  have hAtag : ∀ q ∈ A, ∀ n, tocGet (idxPairs (topElems root)) q = some n →
      tagName n = "action-list" := by
    intro q hq n hn
    rw [hAdef] at hq
    exact removed_id_tag HND hn (List.mem_filter.mp hq).1
  have hqs1 : E.Nodup := by
    rw [hEdef]
    exact (catIds_nodup _ _).filter _
  have hhyp1 : ∀ q ∈ E, ∃ n, tocGet (idxPairs (topElems root)) q = some n ∧
      getAttribute n "id" = q ∧ isElem n = true ∧ (childrenOf root).count n = 1 ∧
      (∀ m ∈ topElems root, getAttribute m "id" = q → m = n) := by
    intro q hq
    obtain ⟨n, hn⟩ := hEres q hq
    obtain ⟨hmem, hid, hq'⟩ := tocGet_idxPairs hn
    refine ⟨n, hn, hid, topElems_isElem hmem, ?_,
      fun m hm hmid => node_id_unique HND hn hm hmid⟩
    rw [count_children_of_elem (topElems_isElem hmem)]
    exact node_count_one HND hn
  obtain ⟨hElem1, hk1, hT1, hcnt1⟩ := removeIds_spec E root root1 k1 hE HElem hqs1 hhyp1
  have hqs2 : O.Nodup := by
    rw [hOdef]
    exact (catIds_nodup _ _).filter _
  have hhyp2 : ∀ q ∈ O, ∃ n, tocGet (idxPairs (topElems root)) q = some n ∧
      getAttribute n "id" = q ∧ isElem n = true ∧ (childrenOf root1).count n = 1 ∧
      (∀ m ∈ topElems root1, getAttribute m "id" = q → m = n) := by
    intro q hq
    obtain ⟨n, hn⟩ := hOres q hq
    obtain ⟨hmem, hid, hq'⟩ := tocGet_idxPairs hn
    have hnotE : ¬ q ∈ E := by
      intro hqE
      have h1 := hEtag q hqE n hn
      have h2 := hOtag q hq n hn
      rw [h1] at h2
      exact absurd h2 (by decide)
    refine ⟨n, hn, hid, topElems_isElem hmem, ?_, ?_⟩
    · rw [hcnt1 n (by rw [hid]; exact hnotE),
        count_children_of_elem (topElems_isElem hmem)]
      exact node_count_one HND hn
    · intro m hm hmid
      rw [hT1] at hm
      exact node_id_unique HND hn (List.mem_filter.mp hm).1 hmid
  obtain ⟨hElem2, hk2, hT2, hcnt2⟩ := removeIds_spec O root1 root2 k2 hO hElem1 hqs2 hhyp2
  have hqs3 : A.Nodup := by
    rw [hAdef]
    exact (catIds_nodup _ _).filter _
  have hhyp3 : ∀ q ∈ A, ∃ n, tocGet (idxPairs (topElems root)) q = some n ∧
      getAttribute n "id" = q ∧ isElem n = true ∧ (childrenOf root2).count n = 1 ∧
      (∀ m ∈ topElems root2, getAttribute m "id" = q → m = n) := by
    intro q hq
    obtain ⟨n, hn⟩ := hAres q hq
    obtain ⟨hmem, hid, hq'⟩ := tocGet_idxPairs hn
    have hnotE : ¬ q ∈ E := by
      intro hqE
      have h1 := hEtag q hqE n hn
      have h2 := hAtag q hq n hn
      rw [h1] at h2
      exact absurd h2 (by decide)
    have hnotO : ¬ q ∈ O := by
      intro hqO
      have h1 := hOtag q hqO n hn
      have h2 := hAtag q hq n hn
      rw [h1] at h2
      exact absurd h2 (by decide)
    refine ⟨n, hn, hid, topElems_isElem hmem, ?_, ?_⟩
    · rw [hcnt2 n (by rw [hid]; exact hnotO), hcnt1 n (by rw [hid]; exact hnotE),
        count_children_of_elem (topElems_isElem hmem)]
      exact node_count_one HND hn
    · intro m hm hmid
      rw [hT2] at hm
      have hm1 := (List.mem_filter.mp hm).1
      rw [hT1] at hm1
      exact node_id_unique HND hn (List.mem_filter.mp hm1).1 hmid
  obtain ⟨hElem3, hk3, hT3, hcnt3⟩ := removeIds_spec A root2 root' k3 hA hElem2 hqs3 hhyp3
  have hTcomp : topElems root' = (topElems root).filter
      (fun m => keepId E O A (getAttribute m "id")) := by
    rw [hT3, hT2, hT1, List.filter_filter, List.filter_filter]
    refine List.filter_congr ?_
    intro m _
    by_cases h1 : getAttribute m "id" ∈ E <;>
      by_cases h2 : getAttribute m "id" ∈ O <;>
        by_cases h3 : getAttribute m "id" ∈ A <;>
          simp [keepId, h1, h2, h3]
  have hIdx : idxPairs (topElems root') =
      (idxPairs (topElems root)).filter (fun p => keepId E O A p.1) := by
    rw [hTcomp]
    exact idxPairs_filter_key (keepId E O A) (topElems root)
  have hToc : ∀ q, keepId E O A q = true →
      tocGet (idxPairs (topElems root')) q = tocGet (idxPairs (topElems root)) q := by
    intro q hq
    rw [hIdx]
    exact tocGet_filter_key (keepId E O A) hq _
  have hKeepEntry : ∀ q ∈ liveEntry, keepId E O A q = true := by
    intro q hq
    obtain ⟨n, hn⟩ := resolveAll_ok_resolves hResE q hq
    have htagn : tagName n = "entry-point-list" := by
      have h1 := HE q hq
      rw [hn] at h1
      exact eq_of_beq h1
    have hnotE : ¬ q ∈ E := by
      rw [hEdef]
      intro hqE
      have h2 := (List.mem_filter.mp hqE).2
      simp at h2
      exact h2 hq
    have hnotO : ¬ q ∈ O := by
      intro hqO
      have h2 := hOtag q hqO n hn
      rw [htagn] at h2
      exact absurd h2 (by decide)
    have hnotA : ¬ q ∈ A := by
      intro hqA
      have h2 := hAtag q hqA n hn
      rw [htagn] at h2
      exact absurd h2 (by decide)
    exact keepId_eq_true hnotE hnotO hnotA
  have hKeepOps : ∀ q ∈ liveOps, keepId E O A q = true := by
    intro q hq
    obtain ⟨p, hp, hpq⟩ := helperOrphF_src fuel entryNodes liveOps hOps
      (resolveAll_mem hResE) q hq
    obtain ⟨n, hn⟩ := resolveAll_ok_resolves hResO q hq
    have htagn : tagName n = "operation-list" := by
      have h1 := HO p hp q hpq
      rw [hn] at h1
      exact eq_of_beq h1
    have hnotO : ¬ q ∈ O := by
      rw [hOdef]
      intro hqO
      have h2 := (List.mem_filter.mp hqO).2
      simp at h2
      exact h2 hq
    have hnotE : ¬ q ∈ E := by
      intro hqE
      have h2 := hEtag q hqE n hn
      rw [htagn] at h2
      exact absurd h2 (by decide)
    have hnotA : ¬ q ∈ A := by
      intro hqA
      have h2 := hAtag q hqA n hn
      rw [htagn] at h2
      exact absurd h2 (by decide)
    exact keepId_eq_true hnotE hnotO hnotA
  have hDefs : (topElems root').filter (fun n => tagName n = "definition-list")
      = (topElems root).filter (fun n => tagName n = "definition-list") := by
    rw [hTcomp, List.filter_filter]
    refine List.filter_congr ?_
    intro m hm
    by_cases htag : tagName m = "definition-list"
    · have hkeep : keepId E O A (getAttribute m "id") = true := by
        refine keepId_eq_true ?_ ?_ ?_
        · intro hqE
          obtain ⟨n, hn⟩ := hEres _ hqE
          have h2 := hEtag _ hqE n hn
          rw [← node_id_unique HND hn hm rfl, htag] at h2
          exact absurd h2 (by decide)
        · intro hqO
          obtain ⟨n, hn⟩ := hOres _ hqO
          have h2 := hOtag _ hqO n hn
          rw [← node_id_unique HND hn hm rfl, htag] at h2
          exact absurd h2 (by decide)
        · intro hqA
          obtain ⟨n, hn⟩ := hAres _ hqA
          have h2 := hAtag _ hqA n hn
          rw [← node_id_unique HND hn hm rfl, htag] at h2
          exact absurd h2 (by decide)
      simp [htag, hkeep]
    · simp [htag]
  have hLiveE' : marksList "entry-point-list"
      ((topElems root').filter (fun n => tagName n = "definition-list")) = liveEntry := by
    rw [hDefs, hLE]
  have hUE' : (catIds (topElems root') "entry-point-list").filter
      (fun q => ¬ q ∈ liveEntry) = [] := by
    rw [List.filter_eq_nil_iff]
    intro q hq
    obtain ⟨m, hm, htagm, hidm⟩ := mem_catIds.mp hq
    rw [hTcomp] at hm
    obtain ⟨hmem, hkeepm⟩ := List.mem_filter.mp hm
    have hkeepq : keepId E O A q = true := by
      rw [← hidm]
      exact hkeepm
    simp only [decide_eq_true_eq, not_not]
    by_contra hql
    have hqE : q ∈ E := by
      rw [hEdef]
      exact List.mem_filter.mpr ⟨mem_catIds.mpr ⟨m, hmem, htagm, hidm⟩, by simpa using hql⟩
    exact (not_mem_of_keepId hkeepq).1 hqE
  have hUO' : (catIds (topElems root') "operation-list").filter
      (fun q => ¬ q ∈ liveOps) = [] := by
    rw [List.filter_eq_nil_iff]
    intro q hq
    obtain ⟨m, hm, htagm, hidm⟩ := mem_catIds.mp hq
    rw [hTcomp] at hm
    obtain ⟨hmem, hkeepm⟩ := List.mem_filter.mp hm
    have hkeepq : keepId E O A q = true := by
      rw [← hidm]
      exact hkeepm
    simp only [decide_eq_true_eq, not_not]
    by_contra hql
    have hqO : q ∈ O := by
      rw [hOdef]
      exact List.mem_filter.mpr ⟨mem_catIds.mpr ⟨m, hmem, htagm, hidm⟩, by simpa using hql⟩
    exact (not_mem_of_keepId hkeepq).2.1 hqO
  have hUA' : (catIds (topElems root') "action-list").filter
      (fun q => ¬ q ∈ liveActs) = [] := by
    rw [List.filter_eq_nil_iff]
    intro q hq
    obtain ⟨m, hm, htagm, hidm⟩ := mem_catIds.mp hq
    rw [hTcomp] at hm
    obtain ⟨hmem, hkeepm⟩ := List.mem_filter.mp hm
    have hkeepq : keepId E O A q = true := by
      rw [← hidm]
      exact hkeepm
    simp only [decide_eq_true_eq, not_not]
    by_contra hql
    have hqA : q ∈ A := by
      rw [hAdef]
      exact List.mem_filter.mpr ⟨mem_catIds.mpr ⟨m, hmem, htagm, hidm⟩, by simpa using hql⟩
    exact (not_mem_of_keepId hkeepq).2.2 hqA
  have hResE' : resolveAll (idxPairs (topElems root')) liveEntry = .ok entryNodes := by
    rw [resolveAll_congr liveEntry (fun q hq => hToc q (hKeepEntry q hq))]
    exact hResE
  have hOps' : helperOrphF (idxPairs (topElems root')) "operation-list" fuel entryNodes
      = some (.ok liveOps) :=
    helperOrphF_stable fuel entryNodes liveOps hOps (fun q hq => hToc q (hKeepOps q hq))
  have hResO' : resolveAll (idxPairs (topElems root')) liveOps = .ok opNodes := by
    rw [resolveAll_congr liveOps (fun q hq => hToc q (hKeepOps q hq))]
    exact hResO
  have h1' : removeIds (idxPairs (topElems root')) root'
      ((catIds (topElems root') "entry-point-list").filter
        (fun q => ¬ q ∈ marksList "entry-point-list"
          ((topElems root').filter (fun n => tagName n = "definition-list"))))
      = .ok (root', 0) := by
    rw [hLiveE', hUE']
    rfl
  have h2' : resolveAll (idxPairs (topElems root'))
      (marksList "entry-point-list"
        ((topElems root').filter (fun n => tagName n = "definition-list")))
      = .ok entryNodes := by
    rw [hLiveE']
    exact hResE'
  have h4' : removeIds (idxPairs (topElems root')) root'
      ((catIds (topElems root') "operation-list").filter (fun q => ¬ q ∈ liveOps))
      = .ok (root', 0) := by
    rw [hUO']
    rfl
  have h6' : removeIds (idxPairs (topElems root')) root'
      ((catIds (topElems root') "action-list").filter (fun q => ¬ q ∈
        setU (marksList "action-list" entryNodes) (marksList "action-list" opNodes)))
      = .ok (root', 0) := by
    rw [← hLA, hUA']
    rfl
  exact pruneRunF_ok_intro h1' h2' hOps' h4' hResO' h6'

/-- An action node no definition ever reaches. -/
def extraAc9 : XNode :=
  .elem "action-list" [("id", "Ac9")] [.elem "name" [] [.text "a9"]]

/-- The scenario document plus one orphan action. -/
def wRoot8 : XNode :=
  .elem "AlertingConfig" [] [defD, nodeE1, nodeO1, nodeAc1, nodeAc2, extraAc9]

theorem pruneSecondRunNoRemovalsWitness :
    pruneRunF 1 wRoot8 = some (.ok (scenRoot, 1)) ∧
    pruneRunF 1 scenRoot = some (.ok (scenRoot, 0)) :=
  ⟨by decide, pruneSecondRunNoRemovals 1 wRoot8 scenRoot 1 (by decide) (by decide)
    (by decide) (by decide) (by decide)⟩
